import Mathlib

/-!
# SpaceNotes: verification of the sync core against its specification

This file gives a shallow embedding, in Lean, of the parts of the SpaceNotes
code base that the specification's claims talk about:

* the path sanitizer (`src/sanitize.rs`),
* the front-matter codec (`src/frontmatter.rs`),
* the disk writer's traversal guard (`src/writer.rs`),
* the startup reconciler (`src/reconcile.rs`),
* the server-side folder and note reducers
  (`spacetime-module/src/folder_reducers.rs`, `note_reducers.rs`).

Strings are modelled as `List Char` (`Str` below), which matches Rust's
`String` for the purely character-level operations the code performs; the
few places where Rust works at the *byte* level (the 1 KiB slice in
`extract_spacetime_id`) are modelled explicitly with UTF-8 byte sizes.
Databases are modelled as lists of rows; `insert` appends a row and the
keyed `delete` operations filter, exactly as the reducer bodies do.

The external `serde_yaml` / `serde_json` / `regex` libraries are not part
of the repository; they are modelled on the grammar fragment the code
actually exercises (one `key: value` binding per line, `BTreeMap` key
ordering, leftmost multi-line regex matching), with the modelling choices
recorded in the doc comments of the corresponding definitions.
-/

set_option autoImplicit false

namespace SpaceNotes

/-! ## Definitions -/

/-- Strings are modelled as lists of characters. -/
abbrev Str := List Char

/-- The ASCII whitespace characters recognised by Rust's `char::is_whitespace`
and by the regex class `\s` on the inputs this code handles. -/
def isWs (c : Char) : Bool :=
  c = ' ' || c = '\t' || c = '\n' || c = '\r' || c = '\x0b' || c = '\x0c'

/-- Rust `str::trim_start`. -/
def trimStart (s : Str) : Str := s.dropWhile isWs

/-- Rust `str::trim_end`. -/
def trimEnd (s : Str) : Str := (s.reverse.dropWhile isWs).reverse

/-- Rust `str::trim`. -/
def trim (s : Str) : Str := trimEnd (trimStart s)

/-- Rust `str::trim_end_matches('/')`: drop every trailing `'/'`. -/
def trimEndSlashes (s : Str) : Str := (s.reverse.dropWhile (· = '/')).reverse

/-- Rust `s.matches('/').count()`. -/
def countSlashes (s : Str) : Nat := s.count '/'

/-- Rust `s.rsplit('/').next().unwrap_or(s)`: the part after the last `'/'`
(or all of `s` when it has no slash). -/
def lastSegment (s : Str) : Str := (s.reverse.takeWhile (· ≠ '/')).reverse

/-- First index at which the pattern `pat` occurs as a substring of `s`
(Rust `str::find` for string patterns). -/
def findSub (pat : Str) : Str → Option Nat
  | [] => if pat = [] then some 0 else none
  | c :: rest =>
    if pat.isPrefixOf (c :: rest) then some 0
    else (findSub pat rest).map (· + 1)

/-- Rust `str::replacen(pat, rep, 1)`: replace the leftmost occurrence of
`pat` (if any) by `rep`.  As in Rust, the empty pattern matches at the
start of the string. -/
def replacen1 (pat rep : Str) : Str → Str
  | [] => if pat = [] then rep else []
  | c :: rest =>
    if pat.isPrefixOf (c :: rest) then rep ++ (c :: rest).drop pat.length
    else c :: replacen1 pat rep rest

/-- Fuelled core of `replaceAll`; the fuel is the string length, which
suffices because each step consumes at least one character when the
pattern is nonempty. -/
def replaceAllAux (pat rep : Str) : Nat → Str → Str
  | _, [] => []
  | 0, s => s
  | fuel + 1, c :: rest =>
    if pat.isPrefixOf (c :: rest) then
      rep ++ replaceAllAux pat rep fuel ((c :: rest).drop pat.length)
    else
      c :: replaceAllAux pat rep fuel rest

/-- Rust `str::replace(pat, rep)`: replace every (leftmost-first,
non-overlapping) occurrence of `pat` by `rep`.  The empty pattern matches
at every position, as in Rust. -/
def replaceAll (pat rep s : Str) : Str :=
  if pat = [] then rep ++ s.foldr (fun c acc => c :: (rep ++ acc)) []
  else replaceAllAux pat rep s.length s

/-- Rust `str::replace(c, rep)` for a single-character pattern, used by the
sanitizer's pre-mapping chain. -/
def replaceChar (c : Char) (rep : Str) (s : Str) : Str :=
  s.foldr (fun x acc => (if x = c then rep else [x]) ++ acc) []

/-- The class of characters `sanitize_path` keeps verbatim:
ASCII alphanumerics plus `/. -_,()[]"'`. -/
def sanitizeAllowed (c : Char) : Bool :=
  c.isAlphanum || c ∈ ['/', '.', ' ', '-', '_', ',', '(', ')', '[', ']', '"', '\'']

/-- `sanitize_path` from `src/sanitize.rs`: first the specific Unicode
pre-mappings (ellipsis, smart quotes, em/en dash), then every character
outside the allowed class is replaced by `'_'`. -/
def sanitize_path (p : Str) : Str :=
  let pre :=
    replaceChar '–' ['-'] <|
    replaceChar '—' ['-'] <|
    replaceChar '’' ['\''] <|
    replaceChar '‘' ['\''] <|
    replaceChar '”' ['"'] <|
    replaceChar '“' ['"'] <|
    replaceChar '…' ['.', '.', '.'] p
  pre.map (fun c => if sanitizeAllowed c then c else '_')

@[simp] theorem replaceChar_nil (c : Char) (rep : Str) : replaceChar c rep [] = [] := rfl

@[simp] theorem replaceChar_cons (c : Char) (rep : Str) (x : Char) (xs : Str) :
    replaceChar c rep (x :: xs) = (if x = c then rep else [x]) ++ replaceChar c rep xs := rfl

/-- Convenience: the character list of a string literal. -/
def lit (s : String) : Str := s.data

/-- A parsed YAML document, as far as the codec observes it through
`serde_yaml::from_str::<Value>`. -/
inductive YamlDoc : Type where
  | null : YamlDoc
  | scalar (v : Str) : YamlDoc
  | mapping (m : List (Str × Str)) : YamlDoc
deriving DecidableEq

/-- Characters allowed in a modelled YAML mapping key. -/
def keyCharOk (c : Char) : Bool := c.isAlphanum || c = '_' || c = '-'

/-- Scalar values that `serde_yaml` surfaces as JSON *strings* (so that
`Value::as_str` succeeds): nonempty, not an integer literal, and not a
boolean or null word. -/
def scalarIsStringy (v : Str) : Bool :=
  v ≠ [] && !v.all Char.isDigit &&
    v ≠ lit "true" && v ≠ lit "false" && v ≠ lit "null" && v ≠ lit "~"

/-- One `key: value` line of a block mapping.  The key must be nonempty,
over the modelled key alphabet, and must not begin with `-`; the colon
must be followed by a space (or end the line, giving a null value), as
YAML requires. -/
def parseKVLine (l : Str) : Option (Str × Str) :=
  let key := l.takeWhile (· ≠ ':')
  let rest := l.drop key.length
  if key ≠ [] ∧ key.all keyCharOk ∧ key.head? ≠ some '-' then
    match rest with
    | c :: r =>
      if c = ':' ∧ (r = [] ∨ r.head? = some ' ') then
        some (key, if trim r = [] then lit "null" else trim r)
      else none
    | [] => none
  else none

/-- Byte-wise (equivalently, for ASCII, character-wise) lexicographic
order on strings — the `Ord` instance behind Rust's `BTreeMap<String, _>`. -/
def strLtB : Str → Str → Bool
  | [], [] => false
  | [], _ :: _ => true
  | _ :: _, [] => false
  | a :: as, b :: bs =>
    if a.toNat < b.toNat then true
    else if b.toNat < a.toNat then false
    else strLtB as bs

/-- Insertion into a key-sorted association list (Rust
`BTreeMap::insert`: replaces the value when the key is present). -/
def mapInsert (k : Str) (v : Str) : List (Str × Str) → List (Str × Str)
  | [] => [(k, v)]
  | (k', v') :: rest =>
    if k = k' then (k, v) :: rest
    else if strLtB k k' then (k, v) :: (k', v') :: rest
    else (k', v') :: mapInsert k v rest

/-- Lookup in an association list (`BTreeMap::get` / `Value::get`). -/
def mapLookup (k : Str) : List (Str × Str) → Option Str
  | [] => none
  | (k', v') :: rest => if k = k' then some v' else mapLookup k rest

/-- The characters a modelled plain scalar may start with: not a YAML
indicator character. -/
def plainScalarOk (t : Str) : Bool :=
  match t.head? with
  | none => false
  | some c =>
    ¬ c ∈ ['[', ']', '{', '}', ':', ',', '&', '*', '!', '|', '>', '%', '@', '`', '"', '\'', '#', '-', '?']
      && findSub (lit ": ") t = none && t.getLast? ≠ some ':'

/-- Split a string into its `'\n'`-separated lines (Rust / YAML line
structure; like `String::lines` but keeping a final empty segment). -/
def splitLines : Str → List Str
  | [] => [[]]
  | c :: rest =>
    if c = '\n' then [] :: splitLines rest
    else
      match splitLines rest with
      | [] => [[c]]
      | l :: ls => (c :: l) :: ls

/-- `serde_yaml::from_str::<Value>` on the modelled fragment: blank input
is `null`; if every nonblank line is a `key: value` line with pairwise
distinct keys the document is a mapping (collected into `BTreeMap` key
order); a single nonblank non-mapping line may be a plain scalar;
everything else is a parse error (`none`). -/
def parseYamlDoc (s : Str) : Option YamlDoc :=
  let ls := (splitLines s).filter (fun l => trim l ≠ [])
  if ls = [] then some .null
  else
    match ls.mapM parseKVLine with
    | some kvs =>
      if (kvs.map Prod.fst).Nodup then
        some (.mapping (kvs.foldl (fun acc kv => mapInsert kv.1 kv.2 acc) []))
      else none
    | none =>
      match ls with
      | [l] => if plainScalarOk (trim l) then some (.scalar (trim l)) else none
      | _ => none

/-- JSON escaping of `"` and `\` (`serde_json::to_string` on strings). -/
def escJson (s : Str) : Str :=
  s.foldr (fun c acc => (if c = '"' ∨ c = '\\' then ['\\', c] else [c]) ++ acc) []

/-- Rendering of one scalar as JSON (`serde_json::to_string` after the
YAML-to-JSON conversion). -/
def scalarJson (v : Str) : Str :=
  if v = [] ∨ v = lit "null" ∨ v = lit "~" then lit "null"
  else if v = lit "true" ∨ v = lit "false" ∨ v.all Char.isDigit then v
  else '"' :: escJson v ++ ['"']

/-- `serde_json::to_string` of a parsed YAML document. -/
def yamlJsonString : YamlDoc → Str
  | .null => lit "null"
  | .scalar v => scalarJson v
  | .mapping m =>
    let fields := m.map (fun kv => '"' :: escJson kv.1 ++ lit "\":" ++ scalarJson kv.2)
    '{' :: (fields.intersperse (lit ",")).foldr (· ++ ·) [] ++ ['}']

/-- The serialized form of one mapping entry: `key: value`. -/
def lineOf (kv : Str × Str) : Str := kv.1 ++ ':' :: ' ' :: kv.2

/-- `serde_yaml::to_string` of a `BTreeMap`: one `key: value\n` line per
entry, in key order. -/
def serializeMap (m : List (Str × Str)) : Str :=
  m.foldr (fun kv acc => lineOf kv ++ '\n' :: acc) []

/-- `parse_frontmatter` from `src/frontmatter.rs`: `(body, frontmatter_json)`.
With no leading `---` or no closing `\n---` the whole content is the body
and the front-matter is `"{}"`; otherwise the region between the fences is
parsed, the body is the text after the fence with leading whitespace
trimmed, and a YAML parse error yields `"{}"`. -/
def parse_frontmatter (content : Str) : Str × Str :=
  if ¬ (lit "---").isPrefixOf content then (content, lit "{}")
  else
    let rest := content.drop 3
    match findSub (lit "\n---") rest with
    | none => (content, lit "{}")
    | some i =>
      let yamlStr := trim (rest.take i)
      let body := trimStart (rest.drop (i + 4))
      match parseYamlDoc yamlStr with
      | some d => (body, yamlJsonString d)
      | none => (body, lit "{}")

/-- The ID alphabet of the regex capture class `[a-f0-9\-]`. -/
def idCharOk (c : Char) : Bool :=
  ('a' ≤ c && c ≤ 'f') || c.isDigit || c = '-'

/-- Attempt of the regex `spacetime_id:\s*([a-f0-9\-]+)` at one position:
after the literal key, `\s*` greedily skips whitespace (newlines
included), then the capture takes a maximal nonempty run of the ID
alphabet. -/
def regexTryMatch (s : Str) : Option Str :=
  if (lit "spacetime_id:").isPrefixOf s then
    let run := ((s.drop 13).dropWhile isWs).takeWhile idCharOk
    if run = [] then none else some run
  else none

/-- Leftmost multiline scan of `(?m)^spacetime_id:\s*(...)`: the pattern
may only match at the start of the text or right after a newline. -/
def regexScan : Str → Bool → Option Str
  | [], _ => none
  | c :: rest, atLineStart =>
    if atLineStart then
      match regexTryMatch (c :: rest) with
      | some r => some r
      | none => regexScan rest (c = '\n')
    else regexScan rest (c = '\n')

/-- UTF-8 byte length of a string (Rust `str::len`). -/
def utf8Len (s : Str) : Nat := (s.map Char.utf8Size).sum

/-- The byte slice `&s[..n]`: `none` models the Rust panic raised when
byte index `n` does not fall on a character boundary. -/
def takeBytes (n : Nat) : Str → Option Str
  | [] => if n = 0 then some [] else none
  | c :: rest =>
    if n = 0 then some []
    else if c.utf8Size ≤ n then (takeBytes (n - c.utf8Size) rest).map (c :: ·)
    else none

/-- `extract_spacetime_id` from `src/frontmatter.rs`.  Strategy 1 is the
strict YAML parse of the fenced region; strategy 2 is the regex fallback
over the first 1024 *bytes*.  The `Except` error is the Rust panic that
`&content[..1024]` raises when byte 1024 is not a character boundary. -/
def extract_spacetime_id (content : Str) : Except Unit (Option Str) :=
  let strat1 : Option Str :=
    if (lit "---").isPrefixOf content then
      match findSub (lit "\n---") (content.drop 3) with
      | some i =>
        match parseYamlDoc ((content.drop 3).take i) with
        | some (.mapping m) =>
          match mapLookup (lit "spacetime_id") m with
          | some v => if scalarIsStringy v then some v else none
          | none => none
        | _ => none
      | none => none
    else none
  match strat1 with
  | some id => .ok (some id)
  | none =>
    match (if utf8Len content > 1024 then takeBytes 1024 content else some content) with
    | none => .error ()
    | some head =>
      .ok ((regexScan head true).map trim)

/-- The fresh front-matter block prepended by `inject_spacetime_id` when
the content has none (or an unterminated one):
`---\nspacetime_id: <id>\n---\n\n<content>`. -/
def freshFM (id content : Str) : Str :=
  lit "---\nspacetime_id: " ++ id ++ lit "\n---\n\n" ++ content

/-- `inject_spacetime_id` from `src/frontmatter.rs`.  With no front-matter
(or no closing fence) a fresh block is prepended.  Otherwise the fenced
region is parsed into a `BTreeMap` (empty when it is not a parseable
mapping — the malformed region is *discarded*), `spacetime_id` is
inserted, and the map is re-serialized in front of the original body. -/
def inject_spacetime_id (content id : Str) : Str :=
  if ¬ (lit "---").isPrefixOf content then freshFM id content
  else
    let rest := content.drop 3
    match findSub (lit "\n---") rest with
    | none => freshFM id content
    | some i =>
      let yamlStr := trim (rest.take i)
      let body := rest.drop (i + 4)
      let m :=
        match parseYamlDoc yamlStr with
        | some (.mapping m) => m
        | _ => []
      lit "---\n" ++ serializeMap (mapInsert (lit "spacetime_id") id m) ++ lit "\n---" ++ body

/-- A key-sorted association list — the invariant of the `BTreeMap` model. -/
def mapSorted (m : List (Str × Str)) : Prop :=
  List.Pairwise (fun a b : Str × Str => strLtB a.1 b.1 = true) m

/-- A key the modelled YAML parser accepts. -/
def okKey (k : Str) : Prop :=
  k ≠ [] ∧ (∀ c ∈ k, keyCharOk c = true) ∧ k.head? ≠ some '-'

/-- A value the modelled serializer can emit on one line and re-parse
verbatim: nonempty, newline-free, and not starting or ending in
whitespace. -/
def okVal (v : Str) : Prop :=
  v ≠ [] ∧ (∀ c ∈ v, c ≠ '\n') ∧
    (∀ c, v.head? = some c → isWs c = false) ∧
    (∀ c, v.getLast? = some c → isWs c = false)

def okEntry (kv : Str × Str) : Prop := okKey kv.1 ∧ okVal kv.2

/-- The serialized map without its final newline (what `trim` leaves of
the fenced region). -/
def joinLines : List (Str × Str) → Str
  | [] => []
  | [kv] => lineOf kv
  | kv :: rest => lineOf kv ++ '\n' :: joinLines rest

/-- A row of the `note` table (`spacetime-module/src/lib.rs`). -/
structure Note : Type where
  id : Str
  path : Str
  name : Str
  content : Str
  folder_path : Str
  depth : Nat
  frontmatter : Str
  size : Nat
  created_time : Nat
  modified_time : Nat
  db_updated_at : Nat
deriving DecidableEq

/-- A row of the `folder` table (`spacetime-module/src/lib.rs`). -/
structure Folder : Type where
  path : Str
  name : Str
  depth : Nat
deriving DecidableEq

/-- The database state:  the two public tables. -/
structure Db : Type where
  notes : List Note
  folders : List Folder
deriving DecidableEq

/-- `create_folder` from `folder_reducers.rs`. -/
def create_folder (db : Db) (path name : Str) (depth : Nat) : Db :=
  let normalized := trimEndSlashes path
  if (db.folders.find? (fun f => f.path = normalized)).isSome then db
  else { db with folders := db.folders ++ [⟨normalized, name, depth⟩] }

/-- `delete_folder` from `folder_reducers.rs`: cascade-delete every note
whose `folder_path` starts with `<normalized>/`, every folder whose
`path` starts with `<normalized>` (other than the folder itself), then
the folder row. -/
def delete_folder (db : Db) (path : Str) : Db :=
  let normalized := trimEndSlashes path
  if (db.folders.find? (fun f => f.path = normalized)).isNone then db
  else
    let path_with_slash := normalized ++ ['/']
    let notes_to_delete :=
      (db.notes.filter (fun n => path_with_slash.isPrefixOf n.folder_path)).map (·.id)
    let notes₁ := notes_to_delete.foldl
      (fun acc nid => acc.filter (fun n => n.id ≠ nid)) db.notes
    let subfolders_to_delete :=
      (db.folders.filter
        (fun f => normalized.isPrefixOf f.path ∧ f.path ≠ normalized)).map (·.path)
    let folders₁ := subfolders_to_delete.foldl
      (fun acc p => acc.filter (fun f => f.path ≠ p)) db.folders
    { notes := notes₁, folders := folders₁.filter (fun f => f.path ≠ normalized) }

/-- The note rewrite performed by `move_folder`'s first cascade: paths
rewritten by `replacen(old/, new/, 1)`, depth recomputed, `db_updated_at`
set to the transaction timestamp, everything else preserved. -/
def moveNoteRewrite (oldS newS : Str) (ts : Nat) (n : Note) : Note :=
  let new_note_path := replacen1 oldS newS n.path
  { n with
    path := new_note_path
    folder_path := replacen1 oldS newS n.folder_path
    depth := countSlashes new_note_path
    db_updated_at := ts }

/-- The subfolder rewrite performed by `move_folder`'s second cascade:
path rewritten by `replacen(old, new, 1)`, name and depth recomputed. -/
def moveFolderRewrite (oldN newN : Str) (f : Folder) : Folder :=
  let new_subfolder_path := replacen1 oldN newN f.path
  ⟨new_subfolder_path, lastSegment new_subfolder_path,
    countSlashes new_subfolder_path⟩

/-- `move_folder` from `folder_reducers.rs`. -/
def move_folder (db : Db) (old_path new_path : Str) (ts : Nat) : Db :=
  let old_normalized := trimEndSlashes old_path
  let new_normalized := trimEndSlashes new_path
  if (db.folders.find? (fun f => f.path = old_normalized)).isNone then db
  else if (db.folders.find? (fun f => f.path = new_normalized)).isSome then db
  else
    let new_name := lastSegment new_normalized
    let new_depth := countSlashes new_normalized
    let old_path_with_slash := old_normalized ++ ['/']
    let new_path_with_slash := new_normalized ++ ['/']
    let notes_to_update :=
      db.notes.filter (fun n => old_path_with_slash.isPrefixOf n.folder_path)
    let notes₁ := notes_to_update.foldl
      (fun acc n => acc.filter (fun x => x.id ≠ n.id) ++
        [moveNoteRewrite old_path_with_slash new_path_with_slash ts n]) db.notes
    let subfolders_to_update :=
      db.folders.filter
        (fun f => old_normalized.isPrefixOf f.path ∧ f.path ≠ old_normalized)
    let folders₁ := subfolders_to_update.foldl
      (fun acc f => acc.filter (fun g => g.path ≠ f.path) ++
        [moveFolderRewrite old_normalized new_normalized f]) db.folders
    { notes := notes₁,
      folders := folders₁.filter (fun f => f.path ≠ old_normalized) ++
        [⟨new_normalized, new_name, new_depth⟩] }

/-- The replacement applied by `find_replace_in_note`: global when
`replace_all`, else first occurrence only. -/
def applyReplace (replace_all : Bool) (old_text new_text content : Str) : Str :=
  if replace_all then replaceAll old_text new_text content
  else replacen1 old_text new_text content

/-- `find_replace_in_note` from `note_reducers.rs`.  `tsMicros` is the
transaction timestamp in microseconds. -/
def find_replace_in_note (db : Db) (path old_text new_text : Str)
    (replace_all : Bool) (tsMicros : Nat) : Db :=
  match db.notes.find? (fun n => n.path = path) with
  | none => db
  | some existing =>
    let new_content := applyReplace replace_all old_text new_text existing.content
    if new_content = existing.content then db
    else
      let new_size := utf8Len new_content
      let now := tsMicros / 1000
      { db with notes := db.notes.filter (fun n => n.id ≠ existing.id) ++
          [{ existing with
              content := new_content
              size := new_size
              modified_time := now
              db_updated_at := tsMicros }] }

/-- Well-formedness of a note's path fields (data-model invariant:
`folder_path` is everything before the last `/` of `path` including the
slash): the folder path is a prefix of the path and the remainder — the
file name — contains no slash. -/
def wfNote (n : Note) : Prop :=
  n.folder_path <+: n.path ∧ '/' ∉ n.path.drop n.folder_path.length

instance (n : Note) : Decidable (wfNote n) := by
  unfold wfNote
  exact inferInstance

/-- A parsed filesystem path — `std::path::Path` on Unix — as an absolute
flag plus the list of normal components.  `..` is kept as an ordinary
component, exactly as in `Path::components`, which never resolves parent
references; `.` and empty components are dropped. -/
structure RPath : Type where
  absolute : Bool
  comps : List Str
deriving DecidableEq

/-- Split a string on `'/'`. -/
def splitSlash : Str → List Str
  | [] => [[]]
  | c :: rest =>
    if c = '/' then [] :: splitSlash rest
    else
      match splitSlash rest with
      | [] => [[c]]
      | l :: ls => (c :: l) :: ls

/-- `Path::new`: absolute when the string starts with `/`; the components
are the nonempty, non-`.` pieces between slashes. -/
def parsePath (s : Str) : RPath :=
  ⟨decide (s.head? = some '/'),
    (splitSlash s).filter (fun c => c ≠ [] ∧ c ≠ lit ".")⟩

/-- `Path::join`: an absolute right-hand side replaces the left. -/
def joinPath (a b : RPath) : RPath :=
  if b.absolute then b else ⟨a.absolute, a.comps ++ b.comps⟩

/-- `Path::starts_with`: component-wise lexical prefix test, with no
`..` resolution (the documented std behaviour). -/
def pathStartsWith (p base : RPath) : Bool :=
  (p.absolute == base.absolute) && base.comps.isPrefixOf p.comps

/-- The component list the operating system actually resolves a path to:
`..` removes the previous component (or stays at the root). -/
def resolveComps (cs : List Str) : List Str :=
  cs.foldl (fun acc c => if c = lit ".." then acc.dropLast else acc ++ [c]) []

/-- The resolved on-disk location of a path. -/
def resolvePath (p : RPath) : RPath :=
  ⟨p.absolute, resolveComps p.comps⟩

/-- The traversal guard of `write_note_to_disk` (`writer.rs` lines 6-12):
join the vault root with the note's path and bail out unless the joined
path starts with the vault root; on success the joined path is the write
target.  The file-system write, frontmatter sandwich and mtime sync that
follow are outside this model. -/
def write_note_to_disk_guard (vault_root : RPath) (note_path : Str) :
    Except Unit RPath :=
  let file_path := joinPath vault_root (parsePath note_path)
  if pathStartsWith file_path vault_root then Except.ok file_path
  else Except.error ()

/-- An observable effect of startup reconciliation: a tracker update, a
disk write of a server note, or an `upsert_note` call with a local
note. -/
inductive ReconcileEffect : Type
  | trackerUpdate (id content : Str)
  | diskWrite (n : Note)
  | upsert (n : Note)
deriving DecidableEq

/-- The id an effect concerns. -/
def effectId : ReconcileEffect → Str
  | .trackerUpdate i _ => i
  | .diskWrite n => n.id
  | .upsert n => n.id

/-- One step of `reconcile_on_startup`'s per-id match (`reconcile.rs`
lines 43-82), as the list of effects it performs. -/
def reconcileNote : Option Note → Option Note → List ReconcileEffect
  | some loc, some server =>
    if server.modified_time > loc.modified_time then
      [.trackerUpdate server.id server.content, .diskWrite server]
    else if loc.modified_time > server.modified_time then
      [.trackerUpdate loc.id loc.content, .upsert loc]
    else
      [.trackerUpdate loc.id loc.content]
  | none, some server =>
    [.trackerUpdate server.id server.content, .diskWrite server]
  | some loc, none =>
    [.trackerUpdate loc.id loc.content, .upsert loc]
  | none, none => []

/-- `reconcile_on_startup` (`reconcile.rs`): build id-keyed maps of the
server and local notes and run the per-id reconciliation over the set of
all ids, concatenating the effects.  The id set is modelled as the
deduplicated list of server ids followed by local ids (the `HashSet`
iteration order is unspecified; this order contains exactly the same
ids).  Disk-write failures (which abort the loop early) and logging are
outside the model. -/
def reconcile_on_startup (server_notes loc_notes : List Note) :
    List ReconcileEffect :=
  let all_ids := ((server_notes.map Note.id) ++ (loc_notes.map Note.id)).dedup
  (all_ids.map (fun i => reconcileNote
    (loc_notes.find? (fun n => n.id = i))
    (server_notes.find? (fun n => n.id = i)))).flatten

/-! ## Theorems -/

theorem replaceChar_of_not_mem (c : Char) (rep : Str) :
    ∀ s : Str, (∀ x ∈ s, x ≠ c) → replaceChar c rep s = s := by
  intro s h
  induction s with
  | nil => rfl
  | cons x xs ih =>
    have hx : x ≠ c := h x (List.mem_cons_self x xs)
    simp only [replaceChar_cons, if_neg hx, List.singleton_append, List.cons.injEq, true_and]
    exact ih fun y hy => h y (List.mem_cons_of_mem x hy)

theorem map_id_of_fixes {α : Type} (f : α → α) :
    ∀ l : List α, (∀ x ∈ l, f x = x) → l.map f = l := by
  intro l h
  induction l with
  | nil => rfl
  | cons x xs ih =>
    simp only [List.map_cons, h x (List.mem_cons_self x xs), List.cons.injEq, true_and]
    exact ih fun y hy => h y (List.mem_cons_of_mem x hy)

theorem sanitize_path_mem_allowed (p : Str) :
    ∀ c ∈ sanitize_path p, sanitizeAllowed c = true := by
  intro c hc
  unfold sanitize_path at hc
  rcases List.mem_map.mp hc with ⟨x, _, hfx⟩
  by_cases hx : sanitizeAllowed x = true
  · rw [if_pos hx] at hfx
    exact hfx ▸ hx
  · rw [if_neg hx] at hfx
    rw [← hfx]
    decide

/-- **C9.** `sanitize_path` is idempotent, and its output contains only ASCII
alphanumerics and characters of the class `/. -_,()[]"'` — every other
character having been replaced by `'_'` after the Unicode pre-mappings
(ellipsis to `...`, smart quotes to plain quotes, em/en dash to `-`). -/
theorem sanitize_path_idempotent_and_allowed (p : Str) :
    sanitize_path (sanitize_path p) = sanitize_path p ∧
      ∀ c, c ∈ sanitize_path p → sanitizeAllowed c = true := by
  refine ⟨?_, sanitize_path_mem_allowed p⟩
  have hall := sanitize_path_mem_allowed p
  set q := sanitize_path p with hq
  have hnot : ∀ (c : Char), sanitizeAllowed c = false → ∀ x ∈ q, x ≠ c := by
    intro c hc x hx hxc
    rw [hxc] at hx
    rw [hall c hx] at hc
    exact Bool.noConfusion hc
  show sanitize_path q = q
  unfold sanitize_path
  rw [replaceChar_of_not_mem _ _ q (hnot '…' (by decide)),
      replaceChar_of_not_mem _ _ q (hnot '“' (by decide)),
      replaceChar_of_not_mem _ _ q (hnot '”' (by decide)),
      replaceChar_of_not_mem _ _ q (hnot '‘' (by decide)),
      replaceChar_of_not_mem _ _ q (hnot '’' (by decide)),
      replaceChar_of_not_mem _ _ q (hnot '—' (by decide)),
      replaceChar_of_not_mem _ _ q (hnot '–' (by decide))]
  exact map_id_of_fixes _ q fun x hx => if_pos (hall x hx)

/-- Witness for **C9** at the concrete path `"a…b"`: the sanitized form is
`"a...b"`, sanitizing again is the identity, and a sampled output character
is in the allowed class. -/
theorem sanitize_path_idempotent_and_allowed_witness :
    sanitize_path (sanitize_path ['a', '…', 'b']) = sanitize_path ['a', '…', 'b'] ∧
      sanitizeAllowed 'a' = true :=
  ⟨(sanitize_path_idempotent_and_allowed ['a', '…', 'b']).1,
    (sanitize_path_idempotent_and_allowed ['a', '…', 'b']).2 'a' (by decide)⟩

theorem ws_char_cases (c : Char) (h : isWs c = true) :
    c = ' ' ∨ c = '\t' ∨ c = '\n' ∨ c = '\r' ∨ c = '\x0b' ∨ c = '\x0c' := by
  simp only [isWs, Bool.or_eq_true, decide_eq_true_eq] at h
  tauto

theorem keyCharOk_not_ws {c : Char} (h : keyCharOk c = true) : isWs c = false := by
  cases hw : isWs c with
  | false => rfl
  | true =>
    rcases ws_char_cases c hw with h' | h' | h' | h' | h' | h' <;>
      (subst h'; exact absurd h (by decide))

theorem keyCharOk_ne_colon {c : Char} (h : keyCharOk c = true) : c ≠ ':' := by
  intro h'; subst h'; exact absurd h (by decide)

theorem keyCharOk_ne_nl {c : Char} (h : keyCharOk c = true) : c ≠ '\n' := by
  intro h'; subst h'; exact absurd h (by decide)

theorem idCharOk_not_ws {c : Char} (h : idCharOk c = true) : isWs c = false := by
  cases hw : isWs c with
  | false => rfl
  | true =>
    rcases ws_char_cases c hw with h' | h' | h' | h' | h' | h' <;>
      (subst h'; exact absurd h (by decide))

theorem idCharOk_ne_nl {c : Char} (h : idCharOk c = true) : c ≠ '\n' := by
  intro h'; subst h'; exact absurd h (by decide)

theorem trimStart_cons_of_not_ws {c : Char} (s : Str) (h : isWs c = false) :
    trimStart (c :: s) = c :: s := by
  simp [trimStart, List.dropWhile_cons, h]

theorem trimStart_eq_self_of_not_ws {s : Str} (h : ∀ c ∈ s, isWs c = false) :
    trimStart s = s := by
  cases s with
  | nil => rfl
  | cons c rest => exact trimStart_cons_of_not_ws rest (h c (List.mem_cons_self c rest))

theorem trimEnd_eq_self_of_not_ws {s : Str} (h : ∀ c ∈ s, isWs c = false) :
    trimEnd s = s := by
  unfold trimEnd
  cases hr : s.reverse with
  | nil =>
    have hs : s = [] := by rw [← List.reverse_reverse s, hr, List.reverse_nil]
    rw [hs]
    rfl
  | cons c rest =>
    have hc : c ∈ s := by
      rw [← List.mem_reverse, hr]; exact List.mem_cons_self c rest
    rw [List.dropWhile_cons, h c hc]
    simp only [Bool.false_eq_true, if_false]
    rw [← hr, List.reverse_reverse]

theorem trim_eq_self_of_not_ws {s : Str} (h : ∀ c ∈ s, isWs c = false) :
    trim s = s := by
  unfold trim
  rw [trimStart_eq_self_of_not_ws h, trimEnd_eq_self_of_not_ws h]

theorem mem_of_mem_trimStart {c : Char} {s : Str} (h : c ∈ trimStart s) : c ∈ s :=
  (List.dropWhile_sublist isWs).mem h

theorem mem_of_mem_trimEnd {c : Char} {s : Str} (h : c ∈ trimEnd s) : c ∈ s := by
  unfold trimEnd at h
  rw [List.mem_reverse] at h
  rw [← List.mem_reverse]
  exact (List.dropWhile_sublist isWs).mem h

theorem mem_of_mem_trim {c : Char} {s : Str} (h : c ∈ trim s) : c ∈ s :=
  mem_of_mem_trimStart (mem_of_mem_trimEnd h)

theorem trimEnd_eq_self_of_getLast_not_ws {s : Str}
    (h : ∀ c, s.getLast? = some c → isWs c = false) : trimEnd s = s := by
  unfold trimEnd
  cases hr : s.reverse with
  | nil =>
    have hs : s = [] := by rw [← List.reverse_reverse s, hr, List.reverse_nil]
    rw [hs]
    rfl
  | cons c rest =>
    have hc : s.getLast? = some c := by
      rw [← List.head?_reverse, hr, List.head?_cons]
    rw [List.dropWhile_cons, h c hc]
    simp only [Bool.false_eq_true, if_false]
    rw [← hr, List.reverse_reverse]

theorem head_trimStart_not_ws {s : Str} {c : Char} {t : Str}
    (h : trimStart s = c :: t) : isWs c = false := by
  have := List.head?_dropWhile_not isWs s
  rw [show s.dropWhile isWs = trimStart s from rfl, h, List.head?_cons] at this
  simpa using this

theorem trimEnd_prefix_self (s : Str) : trimEnd s <+: s := by
  have h : List.dropWhile isWs s.reverse <:+ s.reverse := List.dropWhile_suffix isWs
  show (List.dropWhile isWs s.reverse).reverse <+: s
  simpa using List.reverse_prefix.mpr h

theorem getLast_trimEnd_not_ws {s : Str} {c : Char}
    (h : (trimEnd s).getLast? = some c) : isWs c = false := by
  unfold trimEnd at h
  rw [List.getLast?_reverse] at h
  have := List.head?_dropWhile_not isWs s.reverse
  rw [h] at this
  simpa using this

/-- The head of a nonempty `trim` output is not whitespace. -/
theorem trim_head_not_ws {s : Str} {c : Char} {t : Str}
    (h : trim s = c :: t) : isWs c = false := by
  unfold trim at h
  rcases (trimEnd_prefix_self (trimStart s)) with ⟨u, hu⟩
  rw [h] at hu
  cases hst : trimStart s with
  | nil => rw [hst] at hu; exact absurd hu.symm (by simp)
  | cons d ds =>
    have hd := head_trimStart_not_ws hst
    rw [hst] at hu
    have : c = d := by
      have := congrArg List.head? hu
      simpa using this
    rwa [this]

/-- The last character of a nonempty `trim` output is not whitespace. -/
theorem trim_getLast_not_ws {s : Str} {c : Char}
    (h : (trim s).getLast? = some c) : isWs c = false :=
  getLast_trimEnd_not_ws h

/-- `trim (' ' :: v) = v` when `v` is nonempty with non-whitespace first
and last characters — the key step of re-parsing a serialized
`key: value` line. -/
theorem trim_space_cons {v : Str} (hne : v ≠ [])
    (hh : ∀ c, v.head? = some c → isWs c = false)
    (hl : ∀ c, v.getLast? = some c → isWs c = false) :
    trim (' ' :: v) = v := by
  unfold trim
  have h1 : trimStart (' ' :: v) = v := by
    unfold trimStart
    rw [List.dropWhile_cons]
    simp only [show isWs ' ' = true from rfl, if_true]
    cases hv : v with
    | nil => exact absurd hv hne
    | cons c t =>
      rw [List.dropWhile_cons, hh c (by rw [hv, List.head?_cons])]
      simp
  rw [h1]
  exact trimEnd_eq_self_of_getLast_not_ws hl

theorem isPrefixOf_cons₂ (a : Char) (p : Str) (b : Char) (s : Str) :
    (a :: p).isPrefixOf (b :: s) = (a == b && p.isPrefixOf s) := rfl

theorem isPrefixOf_cons_of_ne {a b : Char} (p s : Str) (h : a ≠ b) :
    (a :: p).isPrefixOf (b :: s) = false := by
  rw [isPrefixOf_cons₂, beq_eq_false_iff_ne.mpr h, Bool.false_and]

theorem findSub_cons (pat : Str) (c : Char) (s : Str) :
    findSub pat (c :: s) =
      if pat.isPrefixOf (c :: s) then some 0 else (findSub pat s).map (· + 1) := rfl

theorem findSub_of_leading {pat s : Str} (h : pat.isPrefixOf s = true) :
    findSub pat s = some 0 := by
  cases s with
  | nil =>
    cases pat with
    | nil => rfl
    | cons p ps => exact absurd h (by simp [List.isPrefixOf])
  | cons c rest => rw [findSub_cons, if_pos h]

theorem findSub_append_of_head_notin {p₀ : Char} (pat' chunk t : Str)
    (h : p₀ ∉ chunk) :
    findSub (p₀ :: pat') (chunk ++ t) =
      (findSub (p₀ :: pat') t).map (· + chunk.length) := by
  induction chunk with
  | nil =>
    simp only [List.nil_append, List.length_nil]
    cases findSub (p₀ :: pat') t <;> simp
  | cons c ch ih =>
    have hc : p₀ ≠ c := fun he => h (he ▸ List.mem_cons_self c ch)
    rw [List.cons_append, findSub_cons,
      if_neg (by rw [isPrefixOf_cons_of_ne _ _ hc]; exact Bool.false_ne_true),
      ih (fun hm => h (List.mem_cons_of_mem c hm))]
    cases findSub (p₀ :: pat') t with
    | none => rfl
    | some k =>
      simp only [Option.map_some', List.length_cons]
      exact congrArg some (by omega)

theorem splitLines_ne_nil (s : Str) : splitLines s ≠ [] := by
  cases s with
  | nil => simp [splitLines]
  | cons c rest =>
    unfold splitLines
    by_cases h : c = '\n'
    · simp [h]
    · simp only [h, if_false]
      cases splitLines rest <;> simp

theorem splitLines_nl_cons (s : Str) : splitLines ('\n' :: s) = [] :: splitLines s := rfl

theorem splitLines_cons_of_ne {c : Char} (h : c ≠ '\n') {s l : Str} {ls : List Str}
    (hs : splitLines s = l :: ls) : splitLines (c :: s) = (c :: l) :: ls := by
  unfold splitLines
  simp only [h, if_false]
  rw [hs]

theorem splitLines_append_no_nl {chunk : Str} (h : '\n' ∉ chunk) {s l : Str}
    {ls : List Str} (hs : splitLines s = l :: ls) :
    splitLines (chunk ++ s) = (chunk ++ l) :: ls := by
  induction chunk with
  | nil => simpa using hs
  | cons c ch ih =>
    have hc : c ≠ '\n' := fun he => h (he ▸ List.mem_cons_self c ch)
    rw [List.cons_append,
      splitLines_cons_of_ne hc (ih (fun hm => h (List.mem_cons_of_mem c hm))),
      List.cons_append]

theorem splitLines_no_nl {s : Str} (h : '\n' ∉ s) : splitLines s = [s] := by
  have := @splitLines_append_no_nl s h [] [] [] rfl
  simpa using this

theorem mem_splitLines_no_nl {s : Str} :
    ∀ l ∈ splitLines s, '\n' ∉ l := by
  induction s with
  | nil =>
    intro l hl
    simp only [splitLines] at hl
    rcases List.mem_singleton.mp hl with rfl
    simp
  | cons c rest ih =>
    intro l hl
    unfold splitLines at hl
    by_cases h : c = '\n'
    · simp only [h, if_pos rfl] at hl
      rcases List.mem_cons.mp hl with rfl | hl'
      · simp
      · exact ih l hl'
    · simp only [h, if_false] at hl
      cases hrest : splitLines rest with
      | nil => exact absurd hrest (splitLines_ne_nil rest)
      | cons l₀ ls =>
        rw [hrest] at hl
        rcases List.mem_cons.mp hl with rfl | hl'
        · intro hmem
          rcases List.mem_cons.mp hmem with rfl | hmem'
          · exact h rfl
          · exact ih l₀ (hrest ▸ List.mem_cons_self l₀ ls) hmem'
        · exact ih l (hrest ▸ List.mem_cons_of_mem l₀ hl')

theorem char_toNat_inj {a b : Char} (h : a.toNat = b.toNat) : a = b :=
  Char.eq_of_val_eq (UInt32.ext h)

theorem strLtB_irrefl : ∀ s : Str, strLtB s s = false
  | [] => rfl
  | c :: rest => by
    unfold strLtB
    simp only [lt_irrefl, if_false]
    exact strLtB_irrefl rest

theorem strLtB_ne {a b : Str} (h : strLtB a b = true) : a ≠ b := by
  intro he
  rw [he, strLtB_irrefl] at h
  exact Bool.noConfusion h

theorem strLtB_asymm : ∀ {a b : Str}, strLtB a b = true → strLtB b a = false
  | [], [], h => Bool.noConfusion h
  | [], _ :: _, _ => rfl
  | _ :: _, [], h => Bool.noConfusion h
  | a :: as, b :: bs, h => by
    unfold strLtB at h ⊢
    by_cases h1 : a.toNat < b.toNat
    · rw [if_neg (by omega), if_pos h1]
    · rw [if_neg h1] at h
      by_cases h2 : b.toNat < a.toNat
      · rw [if_pos h2] at h
        exact Bool.noConfusion h
      · rw [if_neg h2] at h
        rw [if_neg h2, if_neg h1]
        exact strLtB_asymm h

theorem strLtB_trans : ∀ {a b c : Str},
    strLtB a b = true → strLtB b c = true → strLtB a c = true
  | [], [], _, h, _ => Bool.noConfusion h
  | [], _ :: _, [], _, h => Bool.noConfusion h
  | [], _ :: _, _ :: _, _, _ => rfl
  | _ :: _, [], _, h, _ => Bool.noConfusion h
  | _ :: _, _ :: _, [], _, h => Bool.noConfusion h
  | a :: as, b :: bs, c :: cs, h1, h2 => by
    unfold strLtB at h1 h2 ⊢
    by_cases hab : a.toNat < b.toNat
    · by_cases hbc : b.toNat < c.toNat
      · rw [if_pos (by omega)]
      · rw [if_neg hbc] at h2
        by_cases hcb : c.toNat < b.toNat
        · rw [if_pos hcb] at h2
          exact Bool.noConfusion h2
        · have : b.toNat = c.toNat := by omega
          rw [if_pos (by omega)]
    · rw [if_neg hab] at h1
      by_cases hba : b.toNat < a.toNat
      · rw [if_pos hba] at h1
        exact Bool.noConfusion h1
      · rw [if_neg hba] at h1
        have hab' : a.toNat = b.toNat := by omega
        by_cases hbc : b.toNat < c.toNat
        · rw [if_pos (by omega)]
        · rw [if_neg hbc] at h2
          by_cases hcb : c.toNat < b.toNat
          · rw [if_pos hcb] at h2
            exact Bool.noConfusion h2
          · rw [if_neg hcb] at h2
            rw [if_neg (by omega), if_neg (by omega)]
            exact strLtB_trans h1 h2

theorem strLtB_total_of_ne : ∀ {a b : Str}, a ≠ b →
    strLtB a b = true ∨ strLtB b a = true
  | [], [], h => absurd rfl h
  | [], _ :: _, _ => Or.inl rfl
  | _ :: _, [], _ => Or.inr rfl
  | a :: as, b :: bs, h => by
    unfold strLtB
    by_cases hab : a.toNat < b.toNat
    · exact Or.inl (by rw [if_pos hab])
    · by_cases hba : b.toNat < a.toNat
      · exact Or.inr (by rw [if_pos hba])
      · have heq : a = b := char_toNat_inj (by omega)
        subst heq
        have hne : as ≠ bs := fun he => h (he ▸ rfl)
        rcases strLtB_total_of_ne hne with h' | h'
        · exact Or.inl (by rw [if_neg hab, if_neg hab]; exact h')
        · exact Or.inr (by rw [if_neg hab, if_neg hab]; exact h')

theorem mapInsert_ne_nil (k v : Str) (m : List (Str × Str)) : mapInsert k v m ≠ [] := by
  cases m with
  | nil => simp [mapInsert]
  | cons kv rest =>
    unfold mapInsert
    by_cases h1 : k = kv.1 <;> by_cases h2 : strLtB k kv.1 = true <;>
      simp [h1, h2]

theorem mem_mapInsert {x : Str × Str} {k v : Str} :
    ∀ {m : List (Str × Str)}, x ∈ mapInsert k v m → x = (k, v) ∨ x ∈ m
  | [], h => by simpa [mapInsert] using h
  | (k', v') :: rest, h => by
    unfold mapInsert at h
    by_cases h1 : k = k'
    · simp only [h1, if_pos rfl] at h
      rcases List.mem_cons.mp h with rfl | hm
      · exact Or.inl (by rw [h1])
      · exact Or.inr (List.mem_cons_of_mem _ hm)
    · rw [if_neg h1] at h
      by_cases h2 : strLtB k k' = true
      · rw [if_pos h2] at h
        rcases List.mem_cons.mp h with rfl | hm
        · exact Or.inl rfl
        · exact Or.inr hm
      · rw [if_neg h2] at h
        rcases List.mem_cons.mp h with rfl | hm
        · exact Or.inr (List.mem_cons_self _ _)
        · rcases mem_mapInsert hm with h' | h'
          · exact Or.inl h'
          · exact Or.inr (List.mem_cons_of_mem _ h')

theorem mapInsert_sorted {k v : Str} :
    ∀ {m : List (Str × Str)}, mapSorted m → mapSorted (mapInsert k v m)
  | [], _ => by simp [mapInsert, mapSorted]
  | (k', v') :: rest, hs => by
    rcases List.pairwise_cons.mp hs with ⟨hhead, htail⟩
    unfold mapInsert
    by_cases h1 : k = k'
    · rw [if_pos h1]
      exact List.pairwise_cons.mpr ⟨fun x hx => h1 ▸ hhead x hx, htail⟩
    · rw [if_neg h1]
      by_cases h2 : strLtB k k' = true
      · rw [if_pos h2]
        refine List.pairwise_cons.mpr ⟨?_, hs⟩
        intro x hx
        rcases List.mem_cons.mp hx with rfl | hx'
        · exact h2
        · exact strLtB_trans h2 (hhead x hx')
      · rw [if_neg h2]
        have h3 : strLtB k' k = true := by
          rcases strLtB_total_of_ne h1 with h' | h'
          · exact absurd h' h2
          · exact h'
        refine List.pairwise_cons.mpr ⟨?_, mapInsert_sorted htail⟩
        intro x hx
        rcases mem_mapInsert hx with rfl | hx'
        · exact h3
        · exact hhead x hx'

theorem mapLookup_mapInsert_self (k v : Str) :
    ∀ m : List (Str × Str), mapLookup k (mapInsert k v m) = some v
  | [] => by simp [mapInsert, mapLookup]
  | (k', v') :: rest => by
    unfold mapInsert
    by_cases h1 : k = k'
    · rw [if_pos h1]
      simp [mapLookup]
    · rw [if_neg h1]
      by_cases h2 : strLtB k k' = true
      · rw [if_pos h2]
        simp [mapLookup]
      · rw [if_neg h2]
        unfold mapLookup
        rw [if_neg h1]
        exact mapLookup_mapInsert_self k v rest

/-- All bindings for key `k` in `mapInsert k v m`, for sorted `m`:
exactly the new one. -/
theorem filter_key_mapInsert (k v : Str) :
    ∀ {m : List (Str × Str)}, mapSorted m →
      (mapInsert k v m).filter (fun kv => kv.1 = k) = [(k, v)]
  | [], _ => by simp [mapInsert]
  | (k', v') :: rest, hs => by
    rcases List.pairwise_cons.mp hs with ⟨hhead, htail⟩
    unfold mapInsert
    by_cases h1 : k = k'
    · rw [if_pos h1]
      have hrest : rest.filter (fun kv => kv.1 = k) = [] := by
        refine List.filter_eq_nil_iff.mpr ?_
        intro x hx
        have := hhead x hx
        rw [← h1] at this
        simpa using (strLtB_ne this).symm
      simp [List.filter_cons, hrest]
    · rw [if_neg h1]
      by_cases h2 : strLtB k k' = true
      · rw [if_pos h2]
        have hrest : ((k', v') :: rest).filter (fun kv => kv.1 = k) = [] := by
          refine List.filter_eq_nil_iff.mpr ?_
          intro x hx
          rcases List.mem_cons.mp hx with rfl | hx'
          · simpa using fun he => h1 he.symm
          · have := strLtB_trans h2 (hhead x hx')
            simpa using (strLtB_ne this).symm
        simp [List.filter_cons, hrest]
      · rw [if_neg h2]
        rw [List.filter_cons]
        have hk' : decide ((k', v').1 = k) = false := by
          simpa using fun he => h1 he.symm
        rw [hk']
        simp only [Bool.false_eq_true, if_false]
        exact filter_key_mapInsert k v htail

theorem foldl_mapInsert_sorted :
    ∀ (kvs : List (Str × Str)) (acc : List (Str × Str)), mapSorted acc →
      mapSorted (kvs.foldl (fun acc kv => mapInsert kv.1 kv.2 acc) acc)
  | [], _, h => h
  | kv :: rest, acc, h =>
    foldl_mapInsert_sorted rest (mapInsert kv.1 kv.2 acc) (mapInsert_sorted h)

theorem mem_foldl_mapInsert {x : Str × Str} :
    ∀ {kvs acc : List (Str × Str)},
      x ∈ kvs.foldl (fun acc kv => mapInsert kv.1 kv.2 acc) acc →
      x ∈ acc ∨ x ∈ kvs
  | [], _, h => Or.inl h
  | kv :: rest, acc, h => by
    rcases @mem_foldl_mapInsert x rest (mapInsert kv.1 kv.2 acc) h with h' | h'
    · rcases mem_mapInsert h' with rfl | h''
      · exact Or.inr (by rw [show kv = (kv.1, kv.2) from rfl]; exact List.mem_cons_self _ _)
      · exact Or.inl h''
    · exact Or.inr (List.mem_cons_of_mem _ h')

theorem mapInsert_append_of_lt (k v : Str) :
    ∀ (m : List (Str × Str)), (∀ kv ∈ m, strLtB kv.1 k = true) →
      mapInsert k v m = m ++ [(k, v)]
  | [], _ => rfl
  | (k', v') :: rest, h => by
    have hk' : strLtB k' k = true := by
      simpa using h (k', v') (List.mem_cons_self _ _)
    unfold mapInsert
    rw [if_neg (fun he => strLtB_ne hk' he.symm),
      if_neg (by simp [strLtB_asymm hk']), List.cons_append,
      mapInsert_append_of_lt k v rest (fun kv hkv => h kv (List.mem_cons_of_mem _ hkv))]

theorem okKey_no_nl {k : Str} (h : okKey k) : '\n' ∉ k := by
  intro hm
  exact keyCharOk_ne_nl (h.2.1 '\n' hm) rfl

theorem okVal_of_id {v : Str} (hne : v ≠ []) (hch : ∀ c ∈ v, idCharOk c = true) :
    okVal v := by
  refine ⟨hne, ?_, ?_, ?_⟩
  · exact fun c hc => idCharOk_ne_nl (hch c hc)
  · intro c hc
    exact idCharOk_not_ws (hch c (List.mem_of_mem_head? hc))
  · intro c hc
    exact idCharOk_not_ws (hch c (List.mem_of_mem_getLast? hc))

theorem lineOf_no_nl {kv : Str × Str} (h : okEntry kv) : '\n' ∉ lineOf kv := by
  rcases h with ⟨hk, hv⟩
  intro hm
  unfold lineOf at hm
  rcases List.mem_append.mp hm with hm' | hm'
  · exact okKey_no_nl hk hm'
  · rcases List.mem_cons.mp hm' with he | hm''
    · exact absurd he (by decide)
    · rcases List.mem_cons.mp hm'' with he' | hm'''
      · exact absurd he' (by decide)
      · exact hv.2.1 '\n' hm''' rfl

theorem takeWhile_eq_self_of_all {p : Char → Bool} {l : Str}
    (h : ∀ c ∈ l, p c = true) : l.takeWhile p = l := by
  induction l with
  | nil => rfl
  | cons c rest ih =>
    rw [List.takeWhile_cons, h c (List.mem_cons_self c rest)]
    simp only [if_true]
    rw [ih (fun x hx => h x (List.mem_cons_of_mem c hx))]

/-- Re-parsing a serialized `key: value` line recovers the entry. -/
theorem parseKVLine_lineOf {kv : Str × Str} (h : okEntry kv) :
    parseKVLine (lineOf kv) = some kv := by
  rcases h with ⟨⟨hkne, hkch, hkhead⟩, hvne, _hvnl, hvhead, hvlast⟩
  obtain ⟨k, v⟩ := kv
  simp only at hkne hkch hkhead hvne hvhead hvlast
  have htk : (lineOf (k, v)).takeWhile (fun c => decide (c ≠ ':')) = k := by
    unfold lineOf
    rw [List.takeWhile_append]
    have hself : k.takeWhile (fun c => decide (c ≠ ':')) = k :=
      takeWhile_eq_self_of_all (fun c hc => by
        simpa using keyCharOk_ne_colon (hkch c hc))
    rw [hself]
    simp
  have hdr : (lineOf (k, v)).drop k.length = ':' :: ' ' :: v := by
    unfold lineOf
    exact List.drop_left k (':' :: ' ' :: v)
  unfold parseKVLine
  simp only [htk, hdr]
  rw [if_pos ⟨hkne, List.all_eq_true.mpr hkch, hkhead⟩]
  have hr : (' ' :: v).head? = some ' ' := rfl
  rw [if_pos ⟨trivial, Or.inr hr⟩]
  have htr : trim (' ' :: v) = v := trim_space_cons hvne hvhead hvlast
  rw [htr, if_neg hvne]

@[simp] theorem serializeMap_nil : serializeMap [] = [] := rfl

@[simp] theorem serializeMap_cons (kv : Str × Str) (m : List (Str × Str)) :
    serializeMap (kv :: m) = lineOf kv ++ '\n' :: serializeMap m := rfl

theorem lineOf_ne_nil {kv : Str × Str} (h : okEntry kv) : lineOf kv ≠ [] := by
  unfold lineOf
  intro he
  rcases List.append_eq_nil.mp he with ⟨h1, _⟩
  exact h.1.1 h1

theorem joinLines_ne_nil {m : List (Str × Str)} (hne : m ≠ [])
    (hok : ∀ kv ∈ m, okEntry kv) : joinLines m ≠ [] := by
  cases m with
  | nil => exact absurd rfl hne
  | cons kv rest =>
    cases rest with
    | nil => exact lineOf_ne_nil (hok kv (List.mem_cons_self _ _))
    | cons kv' rest' =>
      show lineOf kv ++ '\n' :: joinLines (kv' :: rest') ≠ []
      simp

theorem serializeMap_eq_joinLines {m : List (Str × Str)} (hne : m ≠ []) :
    serializeMap m = joinLines m ++ ['\n'] := by
  induction m with
  | nil => exact absurd rfl hne
  | cons kv rest ih =>
    cases rest with
    | nil => rfl
    | cons kv' rest' =>
      rw [serializeMap_cons, ih (by simp)]
      show lineOf kv ++ '\n' :: (joinLines (kv' :: rest') ++ ['\n']) =
        (lineOf kv ++ '\n' :: joinLines (kv' :: rest')) ++ ['\n']
      simp

theorem getLast?_joinLines_not_ws {m : List (Str × Str)} (hne : m ≠ [])
    (hok : ∀ kv ∈ m, okEntry kv) :
    ∀ c, (joinLines m).getLast? = some c → isWs c = false := by
  induction m with
  | nil => exact absurd rfl hne
  | cons kv rest ih =>
    cases rest with
    | nil =>
      intro c hc
      rcases (hok kv (List.mem_cons_self _ _)).2 with ⟨hvne, _, _, hvlast⟩
      have hjoin : joinLines [kv] = lineOf kv := rfl
      have hassoc : lineOf kv = (kv.1 ++ [':', ' ']) ++ kv.2 := by
        unfold lineOf; simp
      rw [hjoin, hassoc, List.getLast?_append_of_ne_nil _ hvne] at hc
      exact hvlast c hc
    | cons kv' rest' =>
      intro c hc
      have hjoin : joinLines (kv :: kv' :: rest') =
          lineOf kv ++ '\n' :: joinLines (kv' :: rest') := rfl
      have hjn : joinLines (kv' :: rest') ≠ [] :=
        joinLines_ne_nil (by simp) (fun x hx => hok x (List.mem_cons_of_mem _ hx))
      rw [hjoin, List.getLast?_append_of_ne_nil _ (by simp),
        show ('\n' :: joinLines (kv' :: rest') : Str) =
          ['\n'] ++ joinLines (kv' :: rest') from rfl,
        List.getLast?_append_of_ne_nil _ hjn] at hc
      exact ih (by simp) (fun x hx => hok x (List.mem_cons_of_mem _ hx)) c hc

theorem dropWhile_ws_exists {s : Str} (h : ∃ c ∈ s, isWs c = false) :
    ∃ c ∈ s.dropWhile isWs, isWs c = false := by
  induction s with
  | nil => exact h
  | cons c rest ih =>
    rcases h with ⟨c', hc', hws⟩
    by_cases hwc : isWs c = true
    · rw [List.dropWhile_cons, if_pos hwc]
      apply ih
      rcases List.mem_cons.mp hc' with rfl | hm
      · rw [hwc] at hws; exact Bool.noConfusion hws
      · exact ⟨c', hm, hws⟩
    · rw [List.dropWhile_cons, if_neg hwc]
      exact ⟨c', hc', hws⟩

theorem trim_ne_nil_of_mem {s : Str} (h : ∃ c ∈ s, isWs c = false) :
    trim s ≠ [] := by
  unfold trim trimEnd
  have h1 : ∃ c ∈ trimStart s, isWs c = false := dropWhile_ws_exists h
  have h2 : ∃ c ∈ (trimStart s).reverse, isWs c = false := by
    rcases h1 with ⟨c, hc, hw⟩
    exact ⟨c, List.mem_reverse.mpr hc, hw⟩
  rcases dropWhile_ws_exists h2 with ⟨c, hc, _⟩
  intro he
  rw [List.reverse_eq_nil_iff] at he
  rw [he] at hc
  exact List.not_mem_nil c hc

theorem trim_lineOf_ne_nil {kv : Str × Str} (h : okEntry kv) :
    trim (lineOf kv) ≠ [] := by
  apply trim_ne_nil_of_mem
  rcases h with ⟨⟨hkne, hkch, _⟩, _⟩
  cases hk : kv.1 with
  | nil => exact absurd hk hkne
  | cons c k' =>
    refine ⟨c, ?_, keyCharOk_not_ws (hkch c (by rw [hk]; exact List.mem_cons_self _ _))⟩
    unfold lineOf
    rw [hk]
    exact List.mem_append_left _ (List.mem_cons_self _ _)

theorem splitLines_serializeMap {m : List (Str × Str)}
    (hok : ∀ kv ∈ m, okEntry kv) :
    splitLines (serializeMap m) = m.map lineOf ++ [[]] := by
  induction m with
  | nil => simp [splitLines]
  | cons kv rest ih =>
    rw [serializeMap_cons,
      splitLines_append_no_nl (lineOf_no_nl (hok kv (List.mem_cons_self _ _)))
        (splitLines_nl_cons (serializeMap rest)),
      ih (fun x hx => hok x (List.mem_cons_of_mem _ hx))]
    simp

theorem splitLines_joinLines {m : List (Str × Str)} (hne : m ≠ [])
    (hok : ∀ kv ∈ m, okEntry kv) :
    splitLines (joinLines m) = m.map lineOf := by
  induction m with
  | nil => exact absurd rfl hne
  | cons kv rest ih =>
    cases rest with
    | nil =>
      show splitLines (lineOf kv) = [lineOf kv]
      exact splitLines_no_nl (lineOf_no_nl (hok kv (List.mem_cons_self _ _)))
    | cons kv' rest' =>
      show splitLines (lineOf kv ++ '\n' :: joinLines (kv' :: rest')) = _
      rw [splitLines_append_no_nl (lineOf_no_nl (hok kv (List.mem_cons_self _ _)))
        (splitLines_nl_cons (joinLines (kv' :: rest'))),
        ih (by simp) (fun x hx => hok x (List.mem_cons_of_mem _ hx))]
      simp

theorem filter_map_lineOf {m : List (Str × Str)} (hok : ∀ kv ∈ m, okEntry kv) :
    (m.map lineOf).filter (fun l => decide (trim l ≠ [])) = m.map lineOf := by
  rw [List.filter_eq_self]
  intro l hl
  rcases List.mem_map.mp hl with ⟨kv, hkv, rfl⟩
  simpa using trim_lineOf_ne_nil (hok kv hkv)

theorem mapM_parseKVLine_map_lineOf {m : List (Str × Str)}
    (hok : ∀ kv ∈ m, okEntry kv) :
    (m.map lineOf).mapM parseKVLine = some m := by
  induction m with
  | nil => rfl
  | cons kv rest ih =>
    rw [List.map_cons, List.mapM_cons, parseKVLine_lineOf (hok kv (List.mem_cons_self _ _)),
      ih (fun x hx => hok x (List.mem_cons_of_mem _ hx))]
    rfl

theorem mapSorted_keys_nodup {m : List (Str × Str)} (h : mapSorted m) :
    (m.map Prod.fst).Nodup :=
  h.map Prod.fst (fun _ _ hab => strLtB_ne hab)

theorem foldl_mapInsert_eq_append :
    ∀ (m acc : List (Str × Str)), mapSorted (acc ++ m) →
      m.foldl (fun acc kv => mapInsert kv.1 kv.2 acc) acc = acc ++ m
  | [], acc, _ => by simp
  | kv :: rest, acc, h => by
    have hcross : ∀ x ∈ acc, strLtB x.1 kv.1 = true := by
      rcases List.pairwise_append.mp h with ⟨_, _, hc⟩
      exact fun x hx => hc x hx kv (List.mem_cons_self _ _)
    show List.foldl _ (mapInsert kv.1 kv.2 acc) rest = acc ++ kv :: rest
    rw [show mapInsert kv.1 kv.2 acc = acc ++ [kv] by
        rw [mapInsert_append_of_lt kv.1 kv.2 acc hcross]]
    rw [foldl_mapInsert_eq_append rest (acc ++ [kv])
      (by rwa [List.append_cons] at h)]
    simp

/-- The modelled YAML parser applied to text whose nonblank lines are
exactly the serialization of a sorted well-formed map yields that map. -/
theorem parseYamlDoc_of_lines {m : List (Str × Str)} {s : Str} (hne : m ≠ [])
    (hok : ∀ kv ∈ m, okEntry kv) (hsorted : mapSorted m)
    (hls : (splitLines s).filter (fun l => decide (trim l ≠ [])) = m.map lineOf) :
    parseYamlDoc s = some (.mapping m) := by
  unfold parseYamlDoc
  simp only [hls]
  rw [if_neg (by simpa using hne)]
  rw [mapM_parseKVLine_map_lineOf hok]
  simp only
  rw [if_pos (mapSorted_keys_nodup hsorted)]
  rw [foldl_mapInsert_eq_append m [] (by simpa using hsorted)]
  simp

/-- Re-parsing the fenced region emitted by the serializer (as `extract`
reads it, with the leading newline still present) recovers the map. -/
theorem parseYamlDoc_nl_serializeMap {m : List (Str × Str)} (hne : m ≠ [])
    (hok : ∀ kv ∈ m, okEntry kv) (hsorted : mapSorted m) :
    parseYamlDoc ('\n' :: serializeMap m) = some (.mapping m) := by
  refine parseYamlDoc_of_lines hne hok hsorted ?_
  rw [splitLines_nl_cons, splitLines_serializeMap hok]
  rw [List.filter_cons]
  simp only [show (decide (trim ([] : Str) ≠ [])) = false from rfl, Bool.false_eq_true,
    if_false]
  rw [List.filter_append, filter_map_lineOf hok]
  simp [show trim ([] : Str) = [] from rfl]

theorem trimStart_eq_self_of_head {s : Str}
    (h : ∀ c, s.head? = some c → isWs c = false) : trimStart s = s := by
  cases s with
  | nil => rfl
  | cons c rest => exact trimStart_cons_of_not_ws rest (h c rfl)

theorem trimEnd_append_ws {c : Char} (h : isWs c = true) (s : Str) :
    trimEnd (s ++ [c]) = trimEnd s := by
  unfold trimEnd
  rw [List.reverse_append, List.reverse_singleton, List.singleton_append,
    List.dropWhile_cons, if_pos h]

theorem head?_serializeMap_not_ws {m : List (Str × Str)}
    (hok : ∀ kv ∈ m, okEntry kv) :
    ∀ c, (serializeMap m).head? = some c → isWs c = false := by
  cases m with
  | nil => intro c hc; exact absurd hc (by simp [serializeMap])
  | cons kv rest =>
    intro c hc
    rcases hok kv (List.mem_cons_self _ _) with ⟨⟨hkne, hkch, _⟩, _⟩
    rw [serializeMap_cons] at hc
    cases hk : kv.1 with
    | nil => exact absurd hk hkne
    | cons a k' =>
      have : lineOf kv = a :: (k' ++ ':' :: ' ' :: kv.2) := by
        unfold lineOf; rw [hk]; rfl
      rw [this, List.cons_append, List.head?_cons] at hc
      have : c = a := by injection hc with h'; exact h'.symm
      subst this
      exact keyCharOk_not_ws (hkch c (by rw [hk]; exact List.mem_cons_self _ _))

/-- `trim` applied to the fenced region (leading newline plus serialized
map) strips exactly the delimiting newlines. -/
theorem trim_nl_serializeMap {m : List (Str × Str)} (hne : m ≠ [])
    (hok : ∀ kv ∈ m, okEntry kv) :
    trim ('\n' :: serializeMap m) = joinLines m := by
  unfold trim
  have h1 : trimStart ('\n' :: serializeMap m) = serializeMap m := by
    unfold trimStart
    rw [List.dropWhile_cons, if_pos (by decide)]
    exact trimStart_eq_self_of_head (head?_serializeMap_not_ws hok)
  rw [h1, serializeMap_eq_joinLines hne, trimEnd_append_ws (by decide)]
  exact trimEnd_eq_self_of_getLast_not_ws (getLast?_joinLines_not_ws hne hok)

/-- Re-parsing the trimmed fenced region (as a second `inject` reads it)
also recovers the map. -/
theorem parseYamlDoc_trim_nl_serializeMap {m : List (Str × Str)} (hne : m ≠ [])
    (hok : ∀ kv ∈ m, okEntry kv) (hsorted : mapSorted m) :
    parseYamlDoc (trim ('\n' :: serializeMap m)) = some (.mapping m) := by
  rw [trim_nl_serializeMap hne hok]
  refine parseYamlDoc_of_lines hne hok hsorted ?_
  rw [splitLines_joinLines hne hok]
  exact filter_map_lineOf hok

theorem lineOf_head {kv : Str × Str} (h : okEntry kv) :
    ∃ c t, lineOf kv = c :: t ∧ keyCharOk c = true ∧ c ≠ '-' := by
  rcases h with ⟨⟨hkne, hkch, hkhead⟩, _⟩
  cases hk : kv.1 with
  | nil => exact absurd hk hkne
  | cons c k' =>
    refine ⟨c, k' ++ ':' :: ' ' :: kv.2, ?_, ?_, ?_⟩
    · unfold lineOf; rw [hk]; rfl
    · exact hkch c (by rw [hk]; exact List.mem_cons_self _ _)
    · intro he
      rw [hk, he] at hkhead
      exact hkhead rfl

/-- Scanning for the closing fence over a serialized map finds it exactly
at the end of the serialized region: position `1 + |serializeMap m|` in
the text after the opening fence. -/
theorem findSub_serialized {m : List (Str × Str)} (hok : ∀ kv ∈ m, okEntry kv)
    (body : Str) :
    findSub (lit "\n---") ('\n' :: (serializeMap m ++ ('\n' :: (lit "---" ++ body)))) =
      some (1 + (serializeMap m).length) := by
  induction m with
  | nil =>
    simp only [serializeMap_nil, List.nil_append, List.length_nil]
    rw [findSub_cons, if_neg ?hneg]
    case hneg =>
      show ¬ ((('\n' :: lit "---") : Str).isPrefixOf _ = true)
      rw [isPrefixOf_cons₂, beq_self_eq_true, Bool.true_and,
        show (lit "---" : Str) = '-' :: lit "--" from rfl,
        isPrefixOf_cons_of_ne _ _ (by decide : ('-' : Char) ≠ '\n')]
      exact Bool.false_ne_true
    rw [findSub_of_leading ?hpre]
    · rfl
    case hpre =>
      show (('\n' :: lit "---") : Str).isPrefixOf ('\n' :: (lit "---" ++ body)) = true
      rw [isPrefixOf_cons₂, beq_self_eq_true, Bool.true_and]
      exact List.isPrefixOf_iff_prefix.mpr (List.prefix_append _ _)
  | cons kv rest ih =>
    have hkv := hok kv (List.mem_cons_self _ _)
    rcases lineOf_head hkv with ⟨c, t, hline, hcok, hcdash⟩
    have hassoc : serializeMap (kv :: rest) ++ ('\n' :: (lit "---" ++ body)) =
        lineOf kv ++ ('\n' :: (serializeMap rest ++ ('\n' :: (lit "---" ++ body)))) := by
      rw [serializeMap_cons, List.append_assoc, List.cons_append]
    rw [hassoc, findSub_cons, if_neg ?hneg2]
    case hneg2 =>
      show ¬ ((('\n' :: lit "---") : Str).isPrefixOf _ = true)
      rw [isPrefixOf_cons₂, beq_self_eq_true, Bool.true_and, hline, List.cons_append,
        show (lit "---" : Str) = '-' :: lit "--" from rfl,
        isPrefixOf_cons_of_ne _ _ (fun he => hcdash he.symm)]
      exact Bool.false_ne_true
    rw [show (lit "\n---" : Str) = '\n' :: lit "---" from rfl,
      findSub_append_of_head_notin (lit "---") (lineOf kv) _ (lineOf_no_nl hkv),
      show ('\n' :: lit "---" : Str) = lit "\n---" from rfl, ih
        (fun x hx => hok x (List.mem_cons_of_mem _ hx))]
    simp only [Option.map_some']
    refine congrArg some ?_
    rw [serializeMap_cons, List.length_append, List.length_cons]
    omega

theorem take_fenced (A body : Str) :
    ('\n' :: (A ++ ('\n' :: (lit "---" ++ body)))).take (1 + A.length) = '\n' :: A := by
  rw [show 1 + A.length = A.length + 1 from by omega, List.take_succ_cons,
    List.take_left]

theorem drop_fenced (A body : Str) :
    ('\n' :: (A ++ ('\n' :: (lit "---" ++ body)))).drop (1 + A.length + 4) = body := by
  rw [show 1 + A.length + 4 = (A.length + 4) + 1 from by omega, List.drop_succ_cons,
    show ('\n' :: (lit "---" ++ body) : Str) = lit "\n---" ++ body from rfl,
    List.drop_append 4]
  rfl

theorem okVal_null : okVal (lit "null") := by
  refine ⟨by decide, ?_, ?_, ?_⟩
  · intro c hc
    intro he
    subst he
    revert hc
    decide
  · intro c hc
    have : c = 'n' := by injection hc with h'; exact h'.symm
    subst this
    rfl
  · intro c hc
    have : c = 'l' := by
      have : (lit "null").getLast? = some 'l' := rfl
      rw [this] at hc
      injection hc with h'
      exact h'.symm
    subst this
    rfl

/-- Every entry produced by `parseKVLine` on a newline-free line is
well-formed. -/
theorem parseKVLine_okEntry {l : Str} {kv : Str × Str} (hnl : '\n' ∉ l)
    (h : parseKVLine l = some kv) : okEntry kv := by
  unfold parseKVLine at h
  set key := l.takeWhile (fun c => decide (c ≠ ':')) with hkey
  by_cases hg : key ≠ [] ∧ key.all keyCharOk = true ∧ key.head? ≠ some '-'
  · rw [if_pos hg] at h
    rcases hg with ⟨hg1, hg2, hg3⟩
    cases hrest : l.drop key.length with
    | nil => rw [hrest] at h; exact Option.noConfusion h
    | cons c r =>
      rw [hrest] at h
      dsimp only at h
      by_cases hok : c = ':' ∧ (r = [] ∨ r.head? = some ' ')
      · rw [if_pos hok] at h
        have hkv : kv = (key, if trim r = [] then lit "null" else trim r) := by
          injection h with h'
          exact h'.symm
        subst hkv
        refine ⟨⟨hg1, List.all_eq_true.mp hg2, hg3⟩, ?_⟩
        by_cases htr : trim r = []
        · rw [if_pos htr]
          exact okVal_null
        · rw [if_neg htr]
          have hrl : ∀ c' ∈ r, c' ∈ l := by
            intro c' hc'
            have h1 : c' ∈ (c :: r) := List.mem_cons_of_mem _ hc'
            rw [← hrest] at h1
            exact (List.drop_sublist _ _).mem h1
          refine ⟨htr, ?_, ?_, ?_⟩
          · intro c' hc' he
            subst he
            exact hnl (hrl _ (mem_of_mem_trim hc'))
          · intro c' hc'
            cases ht : trim r with
            | nil => exact absurd ht htr
            | cons a t =>
              rw [ht] at hc'
              have : c' = a := by injection hc' with h'; exact h'.symm
              subst this
              exact trim_head_not_ws ht
          · intro c' hc'
            exact trim_getLast_not_ws hc'
      · rw [if_neg hok] at h
        exact Option.noConfusion h
  · rw [if_neg hg] at h
    exact Option.noConfusion h

theorem mapM_parseKVLine_mem {ls : List Str} {kvs : List (Str × Str)}
    (h : ls.mapM parseKVLine = some kvs) :
    ∀ kv ∈ kvs, ∃ l ∈ ls, parseKVLine l = some kv := by
  induction ls generalizing kvs with
  | nil =>
    have : kvs = [] := by
      simp only [List.mapM_nil] at h
      injection h with h'
      exact h'.symm
    subst this
    intro kv hkv
    exact absurd hkv (List.not_mem_nil kv)
  | cons l rest ih =>
    rw [List.mapM_cons] at h
    cases hl : parseKVLine l with
    | none => rw [hl] at h; exact Option.noConfusion h
    | some kv₀ =>
      rw [hl] at h
      cases hrest : rest.mapM parseKVLine with
      | none => rw [hrest] at h; exact Option.noConfusion h
      | some kvs₀ =>
        rw [hrest] at h
        have hkvs : kvs = kv₀ :: kvs₀ := by
          simp only [Option.bind_eq_bind, Option.bind_some] at h
          injection h with h'
          exact h'.symm
        subst hkvs
        intro kv hkv
        rcases List.mem_cons.mp hkv with rfl | hkv'
        · exact ⟨l, List.mem_cons_self _ _, hl⟩
        · rcases ih hrest kv hkv' with ⟨l', hl', hp⟩
          exact ⟨l', List.mem_cons_of_mem _ hl', hp⟩

/-- Whenever the modelled YAML parser yields a mapping, that mapping is
key-sorted with well-formed entries. -/
theorem parseYamlDoc_mapping_invariant {s : Str} {m : List (Str × Str)}
    (h : parseYamlDoc s = some (.mapping m)) :
    mapSorted m ∧ ∀ kv ∈ m, okEntry kv := by
  unfold parseYamlDoc at h
  set ls := (splitLines s).filter (fun l => decide (trim l ≠ [])) with hls
  by_cases hempty : ls = []
  · rw [if_pos hempty] at h
    injection h with h'
    exact absurd h' (by intro hy; exact YamlDoc.noConfusion hy)
  · rw [if_neg hempty] at h
    cases hmm : ls.mapM parseKVLine with
    | some kvs =>
      rw [hmm] at h
      dsimp only at h
      by_cases hnd : (kvs.map Prod.fst).Nodup
      · rw [if_pos hnd] at h
        have hm : m = kvs.foldl (fun acc kv => mapInsert kv.1 kv.2 acc) [] := by
          injection h with h'
          cases h'
          rfl
        subst hm
        constructor
        · exact foldl_mapInsert_sorted kvs [] List.Pairwise.nil
        · intro kv hkv
          rcases mem_foldl_mapInsert hkv with h' | h'
          · exact absurd h' (List.not_mem_nil kv)
          · rcases mapM_parseKVLine_mem hmm kv h' with ⟨l, hl, hp⟩
            have hlnl : '\n' ∉ l := by
              have : l ∈ splitLines s := List.mem_of_mem_filter (hls ▸ hl)
              exact mem_splitLines_no_nl l this
            exact parseKVLine_okEntry hlnl hp
      · rw [if_neg hnd] at h
        exact Option.noConfusion h
    | none =>
      rw [hmm] at h
      dsimp only at h
      rcases hcase : ls with _ | ⟨l, rest⟩
      · exact absurd hcase hempty
      · rw [hcase] at h
        cases rest with
        | nil =>
          dsimp only at h
          by_cases hps : plainScalarOk (trim l) = true
          · rw [if_pos hps] at h
            injection h with h'
            exact absurd h' (by intro hy; exact YamlDoc.noConfusion hy)
          · rw [if_neg hps] at h
            exact Option.noConfusion h
        | cons l' rest' =>
          dsimp only at h
          exact Option.noConfusion h

theorem okKey_spacetime_id : okKey (lit "spacetime_id") :=
  ⟨by decide, by decide, by decide⟩

/-- An id that is nonempty, over `[a-f0-9-]`, and not all digits is seen
by the YAML layer as a string scalar. -/
theorem scalarIsStringy_of_id {id : Str} (hne : id ≠ [])
    (hch : ∀ c ∈ id, idCharOk c = true) (hdig : ¬ id.all Char.isDigit = true) :
    scalarIsStringy id = true := by
  have hdig' : id.all Char.isDigit = false := by
    cases h : id.all Char.isDigit
    · rfl
    · exact absurd h hdig
  have hchar : ∀ (w : Str) (c : Char), c ∈ w → idCharOk c = false → id ≠ w := by
    intro w c hcw hbad he
    subst he
    rw [hch c hcw] at hbad
    exact Bool.noConfusion hbad
  have h1 : id ≠ lit "true" := hchar _ 't' (by decide) (by decide)
  have h2 : id ≠ lit "false" := hchar _ 'l' (by decide) (by decide)
  have h3 : id ≠ lit "null" := hchar _ 'n' (by decide) (by decide)
  have h4 : id ≠ lit "~" := hchar _ '~' (by decide) (by decide)
  simp [scalarIsStringy, hne, hdig', h1, h2, h3, h4]

theorem inject_of_no_fm (content id : Str)
    (hp : (lit "---").isPrefixOf content = false) :
    inject_spacetime_id content id = freshFM id content := by
  unfold inject_spacetime_id
  rw [if_pos (by simp [hp])]

theorem inject_of_no_close (content id : Str)
    (hp : (lit "---").isPrefixOf content = true)
    (hfind : findSub (lit "\n---") (content.drop 3) = none) :
    inject_spacetime_id content id = freshFM id content := by
  unfold inject_spacetime_id
  rw [if_neg (fun hcon => hcon hp)]
  show (match findSub (lit "\n---") (content.drop 3) with
    | none => freshFM id content
    | some i =>
      lit "---\n" ++ serializeMap (mapInsert (lit "spacetime_id") id
        (match parseYamlDoc (trim ((content.drop 3).take i)) with
          | some (.mapping m) => m
          | _ => [])) ++ lit "\n---" ++ (content.drop 3).drop (i + 4)) = _
  rw [hfind]

theorem inject_of_fenced (content id : Str) {i : Nat}
    (hp : (lit "---").isPrefixOf content = true)
    (hfind : findSub (lit "\n---") (content.drop 3) = some i) :
    inject_spacetime_id content id =
      lit "---\n" ++ serializeMap (mapInsert (lit "spacetime_id") id
        (match parseYamlDoc (trim ((content.drop 3).take i)) with
          | some (.mapping m) => m
          | _ => [])) ++ lit "\n---" ++ (content.drop 3).drop (i + 4) := by
  unfold inject_spacetime_id
  rw [if_neg (fun hcon => hcon hp)]
  show (match findSub (lit "\n---") (content.drop 3) with
    | none => freshFM id content
    | some i =>
      lit "---\n" ++ serializeMap (mapInsert (lit "spacetime_id") id
        (match parseYamlDoc (trim ((content.drop 3).take i)) with
          | some (.mapping m) => m
          | _ => [])) ++ lit "\n---" ++ (content.drop 3).drop (i + 4)) = _
  rw [hfind]

theorem findSub_fenced_no_nl {A : Str} (B : Str) (hnl : '\n' ∉ A)
    {c : Char} {t : Str} (hA : A = c :: t) (hc : c ≠ '-') :
    findSub (lit "\n---") ('\n' :: (A ++ ('\n' :: (lit "---" ++ B)))) =
      some (1 + A.length) := by
  rw [findSub_cons, if_neg ?hneg]
  case hneg =>
    show ¬ ((('\n' :: lit "---") : Str).isPrefixOf _ = true)
    rw [isPrefixOf_cons₂, beq_self_eq_true, Bool.true_and, hA, List.cons_append,
      show (lit "---" : Str) = '-' :: lit "--" from rfl,
      isPrefixOf_cons_of_ne _ _ (fun he => hc he.symm)]
    exact Bool.false_ne_true
  rw [show (lit "\n---" : Str) = '\n' :: lit "---" from rfl,
    findSub_append_of_head_notin (lit "---") A _ hnl,
    findSub_of_leading ?hpre]
  case hpre =>
    show (('\n' :: lit "---") : Str).isPrefixOf ('\n' :: (lit "---" ++ B)) = true
    rw [isPrefixOf_cons₂, beq_self_eq_true, Bool.true_and]
    exact List.isPrefixOf_iff_prefix.mpr (List.prefix_append _ _)
  simp only [Option.map_some']
  exact congrArg some (by omega)

/-- Strategy 1 of `extract_spacetime_id` succeeds whenever the fenced
region parses to a mapping whose `spacetime_id` is a string scalar. -/
theorem extract_strat1_of {content : Str} {i : Nat} {m : List (Str × Str)}
    {id : Str} (hp : (lit "---").isPrefixOf content = true)
    (hfind : findSub (lit "\n---") (content.drop 3) = some i)
    (hparse : parseYamlDoc ((content.drop 3).take i) = some (.mapping m))
    (hlook : mapLookup (lit "spacetime_id") m = some id)
    (hstr : scalarIsStringy id = true) :
    extract_spacetime_id content = .ok (some id) := by
  unfold extract_spacetime_id
  simp only [hp, if_true, hfind, hparse, hlook, hstr]

/-- `extract_spacetime_id` on a serialized front-matter block. -/
theorem extract_serialized {m2 : List (Str × Str)} {id : Str} (body : Str)
    (hne : m2 ≠ []) (hok : ∀ kv ∈ m2, okEntry kv) (hsorted : mapSorted m2)
    (hlook : mapLookup (lit "spacetime_id") m2 = some id)
    (hstr : scalarIsStringy id = true) :
    extract_spacetime_id (lit "---\n" ++ serializeMap m2 ++ lit "\n---" ++ body) =
      .ok (some id) := by
  have hshape : lit "---\n" ++ serializeMap m2 ++ lit "\n---" ++ body =
      lit "---" ++ ('\n' :: (serializeMap m2 ++ ('\n' :: (lit "---" ++ body)))) := by
    rw [show (lit "---\n" : Str) = lit "---" ++ ['\n'] from rfl,
      show (lit "\n---" : Str) = '\n' :: lit "---" from rfl]
    simp [List.append_assoc]
  rw [hshape]
  have hdrop3 : (lit "---" ++
      ('\n' :: (serializeMap m2 ++ ('\n' :: (lit "---" ++ body))))).drop 3 =
      '\n' :: (serializeMap m2 ++ ('\n' :: (lit "---" ++ body))) := by
    rw [show (3 : Nat) = (lit "---" : Str).length from rfl, List.drop_left]
  refine extract_strat1_of (i := 1 + (serializeMap m2).length)
    (List.isPrefixOf_iff_prefix.mpr (List.prefix_append _ _)) ?_ ?_ hlook hstr
  · rw [hdrop3]
    exact findSub_serialized hok body
  · rw [hdrop3, take_fenced]
    exact parseYamlDoc_nl_serializeMap hne hok hsorted

/-- `extract_spacetime_id` on a freshly-prepended front-matter block. -/
theorem extract_freshFM {id : Str} (content : Str) (hne : id ≠ [])
    (hch : ∀ c ∈ id, idCharOk c = true) (hdig : ¬ id.all Char.isDigit = true) :
    extract_spacetime_id (freshFM id content) = .ok (some id) := by
  have hAline : lit "spacetime_id: " ++ id = lineOf (lit "spacetime_id", id) := by
    unfold lineOf
    rw [show (lit "spacetime_id: " : Str) = lit "spacetime_id" ++ [':', ' '] from rfl,
      List.append_assoc]
    rfl
  have hAnl : '\n' ∉ lit "spacetime_id: " ++ id := by
    intro hm
    rcases List.mem_append.mp hm with hm' | hm'
    · revert hm'; decide
    · exact idCharOk_ne_nl (hch '\n' hm') rfl
  have hshape : freshFM id content = lit "---" ++
      ('\n' :: ((lit "spacetime_id: " ++ id) ++
        ('\n' :: (lit "---" ++ (lit "\n\n" ++ content))))) := by
    unfold freshFM
    rw [show (lit "---\nspacetime_id: " : Str) =
        lit "---" ++ ('\n' :: lit "spacetime_id: ") from rfl,
      show (lit "\n---\n\n" : Str) = '\n' :: (lit "---" ++ lit "\n\n") from rfl]
    simp [List.append_assoc]
  rw [hshape]
  have hdrop3 : (lit "---" ++ ('\n' :: ((lit "spacetime_id: " ++ id) ++
      ('\n' :: (lit "---" ++ (lit "\n\n" ++ content)))))).drop 3 =
      '\n' :: ((lit "spacetime_id: " ++ id) ++
        ('\n' :: (lit "---" ++ (lit "\n\n" ++ content)))) := by
    rw [show (3 : Nat) = (lit "---" : Str).length from rfl, List.drop_left]
  have hAhead : lit "spacetime_id: " ++ id = 's' :: (lit "pacetime_id: " ++ id) := by
    rw [show (lit "spacetime_id: " : Str) = 's' :: lit "pacetime_id: " from rfl]
    rfl
  refine extract_strat1_of (i := 1 + (lit "spacetime_id: " ++ id).length)
    (m := [(lit "spacetime_id", id)])
    (List.isPrefixOf_iff_prefix.mpr (List.prefix_append _ _)) ?_ ?_ ?_
    (scalarIsStringy_of_id hne hch hdig)
  · rw [hdrop3]
    exact findSub_fenced_no_nl _ hAnl hAhead (by decide)
  · rw [hdrop3, take_fenced]
    refine parseYamlDoc_of_lines (by simp) ?_ ?_ ?_
    · intro kv hkv
      rcases List.mem_singleton.mp hkv with rfl
      exact ⟨okKey_spacetime_id, okVal_of_id hne hch⟩
    · exact List.pairwise_singleton _ _
    · rw [splitLines_nl_cons, splitLines_no_nl hAnl]
      rw [List.filter_cons, show (decide (trim ([] : Str) ≠ [])) = false from rfl]
      simp only [Bool.false_eq_true, if_false]
      rw [List.filter_cons]
      have hkeep : (decide (trim (lit "spacetime_id: " ++ id) ≠ [])) = true := by
        simp only [decide_eq_true_eq]
        refine trim_ne_nil_of_mem ⟨'s', ?_, by decide⟩
        rw [hAhead]
        exact List.mem_cons_self _ _
      rw [hkeep]
      simp only [if_true, List.filter_nil, List.map_cons, List.map_nil]
      rw [hAline]
  · simp [mapLookup]

/-- **C4 (counterexample).** The claim quantifies over *every* id.  With
the empty id, `inject_spacetime_id "hello" ""` writes the raw line
`spacetime_id: ` (no YAML quoting), the strict parse sees a null value,
and the regex fallback's `\s*` skips over the newline so that the capture
latches onto the closing fence: the extractor returns `Some "---"`, not
`Some ""`. -/
theorem inject_extract_roundtrip_counterexample :
    ¬ (extract_spacetime_id (inject_spacetime_id (lit "hello") []) =
        Except.ok (some ([] : Str))) := by
  have h : extract_spacetime_id (inject_spacetime_id (lit "hello") []) =
      .ok (some (lit "---")) := by rfl
  rw [h]
  intro hcontra
  injection hcontra with h'
  injection h' with h''
  exact absurd h'' (by decide)

/-- **C4 (amended).** For every content string and every *UUID-shaped* id
— nonempty, over the alphabet `[a-f0-9-]`, and not consisting solely of
digits — `extract_spacetime_id (inject_spacetime_id content id)` returns
`Some id` (and in particular does not panic). -/
theorem inject_extract_roundtrip (content id : Str) (hne : id ≠ [])
    (hch : ∀ c ∈ id, idCharOk c = true) (hdig : ¬ id.all Char.isDigit = true) :
    extract_spacetime_id (inject_spacetime_id content id) = .ok (some id) := by
  by_cases hp : (lit "---").isPrefixOf content = true
  · cases hfind : findSub (lit "\n---") (content.drop 3) with
    | none =>
      rw [inject_of_no_close content id hp hfind]
      exact extract_freshFM content hne hch hdig
    | some i =>
      rw [inject_of_fenced content id hp hfind]
      set M : List (Str × Str) :=
        (match parseYamlDoc (trim ((content.drop 3).take i)) with
          | some (.mapping m) => m
          | _ => []) with hM
      have hMinv : mapSorted M ∧ ∀ kv ∈ M, okEntry kv := by
        rw [hM]
        cases hdoc : parseYamlDoc (trim ((content.drop 3).take i)) with
        | none =>
          exact ⟨List.Pairwise.nil, fun kv hkv => absurd hkv (List.not_mem_nil kv)⟩
        | some d =>
          cases d with
          | null =>
            exact ⟨List.Pairwise.nil, fun kv hkv => absurd hkv (List.not_mem_nil kv)⟩
          | scalar v =>
            exact ⟨List.Pairwise.nil, fun kv hkv => absurd hkv (List.not_mem_nil kv)⟩
          | mapping m => exact parseYamlDoc_mapping_invariant hdoc
      refine extract_serialized _ (mapInsert_ne_nil _ _ _) ?_
        (mapInsert_sorted hMinv.1) (mapLookup_mapInsert_self _ _ _)
        (scalarIsStringy_of_id hne hch hdig)
      intro kv hkv
      rcases mem_mapInsert hkv with rfl | hkv'
      · exact ⟨okKey_spacetime_id, okVal_of_id hne hch⟩
      · exact hMinv.2 kv hkv'
  · have hp' : (lit "---").isPrefixOf content = false := by
      cases h : (lit "---").isPrefixOf content
      · rfl
      · exact absurd h hp
    rw [inject_of_no_fm content id hp']
    exact extract_freshFM content hne hch hdig

/-- Witness for **C4 (amended)** at content `"hello"` and id `"ab-1"`. -/
theorem inject_extract_roundtrip_witness :
    extract_spacetime_id (inject_spacetime_id (lit "hello") (lit "ab-1")) =
      .ok (some (lit "ab-1")) :=
  inject_extract_roundtrip (lit "hello") (lit "ab-1") (by decide) (by decide)
    (by decide)

theorem trim_nl_lineOf {kv : Str × Str} (hok : okEntry kv) :
    trim ('\n' :: lineOf kv) = lineOf kv := by
  unfold trim
  rcases lineOf_head hok with ⟨c, t, hline, hcok, _⟩
  have h1 : trimStart ('\n' :: lineOf kv) = lineOf kv := by
    unfold trimStart
    rw [List.dropWhile_cons, if_pos (by decide), hline, List.dropWhile_cons,
      keyCharOk_not_ws hcok]
    simp
  rw [h1]
  refine trimEnd_eq_self_of_getLast_not_ws ?_
  have : joinLines [kv] = lineOf kv := rfl
  rw [← this]
  exact getLast?_joinLines_not_ws (by simp)
    (fun x hx => by rcases List.mem_singleton.mp hx with rfl; exact hok)

theorem parseYamlDoc_lineOf {kv : Str × Str} (hok : okEntry kv) :
    parseYamlDoc (lineOf kv) = some (.mapping [kv]) := by
  refine parseYamlDoc_of_lines (by simp)
    (fun x hx => by rcases List.mem_singleton.mp hx with rfl; exact hok)
    (List.pairwise_singleton _ _) ?_
  rw [splitLines_no_nl (lineOf_no_nl hok), List.filter_cons]
  have hkeep : (decide (trim (lineOf kv) ≠ [])) = true := by
    simpa using trim_lineOf_ne_nil hok
  rw [hkeep]
  simp

theorem freshFM_shape (id content : Str) :
    freshFM id content = lit "---" ++
      ('\n' :: ((lit "spacetime_id: " ++ id) ++
        ('\n' :: (lit "---" ++ (lit "\n\n" ++ content))))) := by
  unfold freshFM
  rw [show (lit "---\nspacetime_id: " : Str) =
      lit "---" ++ ('\n' :: lit "spacetime_id: ") from rfl,
    show (lit "\n---\n\n" : Str) = '\n' :: (lit "---" ++ lit "\n\n") from rfl]
  simp [List.append_assoc]

/-- The fenced region of a freshly-prepended front-matter block. -/
theorem freshFM_region (id content : Str) (hne : id ≠ [])
    (hch : ∀ c ∈ id, idCharOk c = true) :
    (lit "---").isPrefixOf (freshFM id content) = true ∧
    findSub (lit "\n---") ((freshFM id content).drop 3) =
      some (1 + (lit "spacetime_id: " ++ id).length) ∧
    trim (((freshFM id content).drop 3).take
        (1 + (lit "spacetime_id: " ++ id).length)) =
      lineOf (lit "spacetime_id", id) := by
  have hAline : lit "spacetime_id: " ++ id = lineOf (lit "spacetime_id", id) := by
    unfold lineOf
    rw [show (lit "spacetime_id: " : Str) = lit "spacetime_id" ++ [':', ' '] from rfl,
      List.append_assoc]
    rfl
  have hAnl : '\n' ∉ lit "spacetime_id: " ++ id := by
    intro hm
    rcases List.mem_append.mp hm with hm' | hm'
    · revert hm'; decide
    · exact idCharOk_ne_nl (hch '\n' hm') rfl
  have hAhead : lit "spacetime_id: " ++ id = 's' :: (lit "pacetime_id: " ++ id) := by
    rw [show (lit "spacetime_id: " : Str) = 's' :: lit "pacetime_id: " from rfl]
    rfl
  have hdrop3 : (freshFM id content).drop 3 =
      '\n' :: ((lit "spacetime_id: " ++ id) ++
        ('\n' :: (lit "---" ++ (lit "\n\n" ++ content)))) := by
    rw [freshFM_shape, show (3 : Nat) = (lit "---" : Str).length from rfl,
      List.drop_left]
  refine ⟨?_, ?_, ?_⟩
  · rw [freshFM_shape]
    exact List.isPrefixOf_iff_prefix.mpr (List.prefix_append _ _)
  · rw [hdrop3]
    exact findSub_fenced_no_nl _ hAnl hAhead (by decide)
  · rw [hdrop3, take_fenced, hAline]
    exact trim_nl_lineOf ⟨okKey_spacetime_id, okVal_of_id hne hch⟩

theorem serialized_drop3 (m2 : List (Str × Str)) (body : Str) :
    (lit "---\n" ++ serializeMap m2 ++ lit "\n---" ++ body).drop 3 =
      '\n' :: (serializeMap m2 ++ ('\n' :: (lit "---" ++ body))) := by
  have hshape : lit "---\n" ++ serializeMap m2 ++ lit "\n---" ++ body =
      lit "---" ++ ('\n' :: (serializeMap m2 ++ ('\n' :: (lit "---" ++ body)))) := by
    rw [show (lit "---\n" : Str) = lit "---" ++ ['\n'] from rfl,
      show (lit "\n---" : Str) = '\n' :: lit "---" from rfl]
    simp [List.append_assoc]
  rw [hshape, show (3 : Nat) = (lit "---" : Str).length from rfl, List.drop_left]

/-- The fenced region of the output of `inject_spacetime_id` always
parses (the way the next `inject` reads it, i.e. trimmed) to a sorted,
well-formed mapping binding `spacetime_id` to the id. -/
theorem inject_output_region (content id : Str) (hne : id ≠ [])
    (hch : ∀ c ∈ id, idCharOk c = true) :
    ∃ (i : Nat) (M : List (Str × Str)),
      (lit "---").isPrefixOf (inject_spacetime_id content id) = true ∧
      findSub (lit "\n---") ((inject_spacetime_id content id).drop 3) = some i ∧
      parseYamlDoc (trim (((inject_spacetime_id content id).drop 3).take i)) =
        some (.mapping M) ∧
      M ≠ [] ∧ mapSorted M ∧ (∀ kv ∈ M, okEntry kv) ∧
      mapLookup (lit "spacetime_id") M = some id := by
  have hidval : okVal id := okVal_of_id hne hch
  have hfresh : inject_spacetime_id content id = freshFM id content →
      ∃ (i : Nat) (M : List (Str × Str)),
        (lit "---").isPrefixOf (inject_spacetime_id content id) = true ∧
        findSub (lit "\n---") ((inject_spacetime_id content id).drop 3) = some i ∧
        parseYamlDoc (trim (((inject_spacetime_id content id).drop 3).take i)) =
          some (.mapping M) ∧
        M ≠ [] ∧ mapSorted M ∧ (∀ kv ∈ M, okEntry kv) ∧
        mapLookup (lit "spacetime_id") M = some id := by
    intro hinj
    rcases freshFM_region id content hne hch with ⟨hf1, hf2, hf3⟩
    refine ⟨1 + (lit "spacetime_id: " ++ id).length, [(lit "spacetime_id", id)],
      ?_, ?_, ?_, by simp, List.pairwise_singleton _ _, ?_, by simp [mapLookup]⟩
    · rw [hinj]; exact hf1
    · rw [hinj]; exact hf2
    · rw [hinj, hf3]
      exact parseYamlDoc_lineOf ⟨okKey_spacetime_id, hidval⟩
    · intro kv hkv
      rcases List.mem_singleton.mp hkv with rfl
      exact ⟨okKey_spacetime_id, hidval⟩
  by_cases hp : (lit "---").isPrefixOf content = true
  · cases hfind : findSub (lit "\n---") (content.drop 3) with
    | none => exact hfresh (inject_of_no_close content id hp hfind)
    | some j =>
      have hinj := inject_of_fenced content id hp hfind
      set M₀ : List (Str × Str) :=
        (match parseYamlDoc (trim ((content.drop 3).take j)) with
          | some (.mapping m) => m
          | _ => []) with hM₀
      have hM₀inv : mapSorted M₀ ∧ ∀ kv ∈ M₀, okEntry kv := by
        rw [hM₀]
        cases hdoc : parseYamlDoc (trim ((content.drop 3).take j)) with
        | none =>
          exact ⟨List.Pairwise.nil, fun kv hkv => absurd hkv (List.not_mem_nil kv)⟩
        | some d =>
          cases d with
          | null =>
            exact ⟨List.Pairwise.nil, fun kv hkv => absurd hkv (List.not_mem_nil kv)⟩
          | scalar v =>
            exact ⟨List.Pairwise.nil, fun kv hkv => absurd hkv (List.not_mem_nil kv)⟩
          | mapping m => exact parseYamlDoc_mapping_invariant hdoc
      set M₂ := mapInsert (lit "spacetime_id") id M₀ with hM₂
      have hM₂ok : ∀ kv ∈ M₂, okEntry kv := by
        intro kv hkv
        rcases mem_mapInsert hkv with rfl | hkv'
        · exact ⟨okKey_spacetime_id, hidval⟩
        · exact hM₀inv.2 kv hkv'
      have hM₂sorted : mapSorted M₂ := mapInsert_sorted hM₀inv.1
      have hM₂ne : M₂ ≠ [] := mapInsert_ne_nil _ _ _
      refine ⟨1 + (serializeMap M₂).length, M₂, ?_, ?_, ?_, hM₂ne, hM₂sorted,
        hM₂ok, mapLookup_mapInsert_self _ _ _⟩
      · rw [hinj, show (lit "---\n" : Str) ++ serializeMap M₂ ++ lit "\n---" ++
            (content.drop 3).drop (j + 4) = lit "---" ++
            ('\n' :: (serializeMap M₂ ++ ('\n' :: (lit "---" ++
              (content.drop 3).drop (j + 4))))) by
          rw [show (lit "---\n" : Str) = lit "---" ++ ['\n'] from rfl,
            show (lit "\n---" : Str) = '\n' :: lit "---" from rfl]
          simp [List.append_assoc]]
        exact List.isPrefixOf_iff_prefix.mpr (List.prefix_append _ _)
      · rw [hinj, serialized_drop3]
        exact findSub_serialized hM₂ok _
      · rw [hinj, serialized_drop3, take_fenced]
        exact parseYamlDoc_trim_nl_serializeMap hM₂ne hM₂ok hM₂sorted
  · have hp' : (lit "---").isPrefixOf content = false := by
      cases h : (lit "---").isPrefixOf content
      · rfl
      · exact absurd h hp
    exact hfresh (inject_of_no_fm content id hp')

/-- **C5 (counterexample).** The claim says that when front-matter
delimiters exist but the YAML between them is malformed,
`inject_spacetime_id` treats the content as having no front-matter and
prepends a fresh block (which would keep the whole original content).  On
`"---\n[\n---\nbody"` the code instead *discards* the malformed region
and keeps only the body after the closing fence. -/
theorem inject_malformed_counterexample :
    inject_spacetime_id (lit "---\n[\n---\nbody") (lit "abc") ≠
      freshFM (lit "abc") (lit "---\n[\n---\nbody") := by decide

/-- **C5 (amended).** For UUID-alphabet ids: (1) after two injections the
front-matter region of the result parses to a mapping whose bindings for
`spacetime_id` are exactly one, with value `id₂`; (2) when both
delimiters are present but the YAML region is malformed (not a parseable
mapping), `inject_spacetime_id` discards that region, emitting a
front-matter containing only `spacetime_id` followed by the original
body after the closing delimiter. -/
theorem inject_inject_single_key (content id₁ id₂ : Str)
    (h1ne : id₁ ≠ []) (h1ch : ∀ c ∈ id₁, idCharOk c = true)
    (h2ne : id₂ ≠ []) (h2ch : ∀ c ∈ id₂, idCharOk c = true) :
    (∃ (i : Nat) (m : List (Str × Str)),
      findSub (lit "\n---")
        ((inject_spacetime_id (inject_spacetime_id content id₁) id₂).drop 3) =
        some i ∧
      parseYamlDoc
        (((inject_spacetime_id (inject_spacetime_id content id₁) id₂).drop 3).take i) =
        some (.mapping m) ∧
      m.filter (fun kv => kv.1 = lit "spacetime_id") = [(lit "spacetime_id", id₂)]) ∧
    (∀ i : Nat, (lit "---").isPrefixOf content = true →
      findSub (lit "\n---") (content.drop 3) = some i →
      (∀ m', parseYamlDoc (trim ((content.drop 3).take i)) ≠ some (.mapping m')) →
      inject_spacetime_id content id₂ =
        lit "---\n" ++ serializeMap [(lit "spacetime_id", id₂)] ++ lit "\n---" ++
          (content.drop 3).drop (i + 4)) := by
  constructor
  · obtain ⟨i₁, M₁, hpre₁, hfind₁, hparse₁, _hM₁ne, hM₁sorted, hM₁ok, _hM₁look⟩ :=
      inject_output_region content id₁ h1ne h1ch
    have hinj₂ := inject_of_fenced (inject_spacetime_id content id₁) id₂ hpre₁ hfind₁
    rw [hparse₁] at hinj₂
    dsimp only at hinj₂
    set M₂ := mapInsert (lit "spacetime_id") id₂ M₁ with hM₂
    have hM₂ok : ∀ kv ∈ M₂, okEntry kv := by
      intro kv hkv
      rcases mem_mapInsert hkv with rfl | hkv'
      · exact ⟨okKey_spacetime_id, okVal_of_id h2ne h2ch⟩
      · exact hM₁ok kv hkv'
    have hM₂sorted : mapSorted M₂ := mapInsert_sorted hM₁sorted
    have hM₂ne : M₂ ≠ [] := mapInsert_ne_nil _ _ _
    refine ⟨1 + (serializeMap M₂).length, M₂, ?_, ?_,
      filter_key_mapInsert _ _ hM₁sorted⟩
    · rw [hinj₂, serialized_drop3]
      exact findSub_serialized hM₂ok _
    · rw [hinj₂, serialized_drop3, take_fenced]
      exact parseYamlDoc_nl_serializeMap hM₂ne hM₂ok hM₂sorted
  · intro i hp hfind hmal
    have hinj := inject_of_fenced content id₂ hp hfind
    cases hdoc : parseYamlDoc (trim ((content.drop 3).take i)) with
    | none =>
      rw [hdoc] at hinj
      exact hinj
    | some d =>
      cases d with
      | null =>
        rw [hdoc] at hinj
        exact hinj
      | scalar v =>
        rw [hdoc] at hinj
        exact hinj
      | mapping m => exact absurd hdoc (hmal m)

/-- Witness for **C5 (amended)**: part (1) at content `"x"` and ids
`"ab-1"`, `"cd-2"`; part (2) evaluated at the malformed content
`"---\n[\n---\nbody"`, where the malformed region is discarded. -/
theorem inject_inject_single_key_witness :
    (∃ (i : Nat) (m : List (Str × Str)),
      findSub (lit "\n---")
        ((inject_spacetime_id (inject_spacetime_id (lit "x") (lit "ab-1"))
          (lit "cd-2")).drop 3) = some i ∧
      parseYamlDoc
        (((inject_spacetime_id (inject_spacetime_id (lit "x") (lit "ab-1"))
          (lit "cd-2")).drop 3).take i) = some (.mapping m) ∧
      m.filter (fun kv => kv.1 = lit "spacetime_id") =
        [(lit "spacetime_id", lit "cd-2")]) ∧
    inject_spacetime_id (lit "---\n[\n---\nbody") (lit "cd-2") =
      lit "---\nspacetime_id: cd-2\n\n---\nbody" := by
  constructor
  · exact (inject_inject_single_key (lit "x") (lit "ab-1") (lit "cd-2")
      (by decide) (by decide) (by decide) (by decide)).1
  · have h := (inject_inject_single_key (lit "---\n[\n---\nbody") (lit "ab-1")
      (lit "cd-2") (by decide) (by decide) (by decide) (by decide)).2
      2 (by decide) (by decide) (fun m' hcon => by
        have hnone : parseYamlDoc
            (trim (((lit "---\n[\n---\nbody" : Str).drop 3).take 2)) = none := by
          decide
        rw [hnone] at hcon
        exact Option.noConfusion hcon)
    exact h.trans (by decide)

/-- **C6 (counterexample).** The claim says `parse_frontmatter` returns the
*entire original content* as the body when the front-matter delimiters are
present but the YAML between them is malformed.  At
`"---\n[\n---\nbody"` (the region `[` is a YAML parse error) the code
instead returns only `"body"`. -/
theorem parse_frontmatter_malformed_counterexample :
    parse_frontmatter (lit "---\n[\n---\nbody") ≠
      (lit "---\n[\n---\nbody", lit "{}") := by decide

/-- **C6 (amended).** `parse_frontmatter` returns `(content, "{}")` when no
front-matter block is detected (no leading `---`, or no closing `\n---`);
when both delimiters are present but the YAML region is malformed it
returns the *body after the closing delimiter* (leading whitespace
trimmed) together with `"{}"`. -/
theorem parse_frontmatter_undetected_or_malformed (content : Str) :
    ((¬ (lit "---").isPrefixOf content ∨ findSub (lit "\n---") (content.drop 3) = none) →
        parse_frontmatter content = (content, lit "{}")) ∧
    (∀ i, (lit "---").isPrefixOf content →
        findSub (lit "\n---") (content.drop 3) = some i →
        parseYamlDoc (trim ((content.drop 3).take i)) = none →
        parse_frontmatter content = (trimStart ((content.drop 3).drop (i + 4)), lit "{}")) := by
  constructor
  · intro h
    rcases h with h | h
    · simp only [parse_frontmatter, if_pos h]
    · by_cases hp : (lit "---").isPrefixOf content
      · simp only [parse_frontmatter, hp, not_true_eq_false, if_false, h]
      · simp only [parse_frontmatter, if_pos hp]
  · intro i hp hfind hyaml
    simp only [parse_frontmatter, hp, not_true_eq_false, if_false, hfind, hyaml]

/-- Witness for **C6 (amended)**: content with no front-matter round-trips
unchanged, and the malformed example yields the trimmed body. -/
theorem parse_frontmatter_undetected_or_malformed_witness :
    parse_frontmatter (lit "hello") = (lit "hello", lit "{}") ∧
      parse_frontmatter (lit "---\n[\n---\nbody") = (lit "body", lit "{}") := by
  constructor
  · exact (parse_frontmatter_undetected_or_malformed (lit "hello")).1 (Or.inl (by decide))
  · exact ((parse_frontmatter_undetected_or_malformed (lit "---\n[\n---\nbody")).2
      2 (by decide) (by decide) (by decide)).trans (by decide)

/-- Slicing a run of one-byte characters consumes one byte each. -/
theorem takeBytes_replicate_a (rest : Str) :
    ∀ (k n : Nat), k ≤ n →
      takeBytes n (List.replicate k 'a' ++ rest) =
        (takeBytes (n - k) rest).map (List.replicate k 'a' ++ ·) := by
  intro k
  induction k with
  | zero => intro n _; simp
  | succ k ih =>
    intro n hkn
    rw [List.replicate_succ, List.cons_append]
    have hn : n ≠ 0 := by omega
    have hsize : Char.utf8Size 'a' = 1 := rfl
    simp only [takeBytes, hsize, if_neg hn, if_pos (by omega : 1 ≤ n)]
    rw [ih (n - 1) (by omega)]
    have : n - 1 - k = n - (k + 1) := by omega
    rw [this, Option.map_map]
    rfl

theorem utf8Len_replicate_a_append (k : Nat) (rest : Str) :
    utf8Len (List.replicate k 'a' ++ rest) = k + utf8Len rest := by
  unfold utf8Len
  rw [List.map_append, List.sum_append, List.map_replicate]
  have : Char.utf8Size 'a' = 1 := rfl
  rw [this, List.sum_replicate, smul_eq_mul, mul_one]

/-- **C10.** The claim states `extract_spacetime_id` never panics, even
when byte index 1024 falls inside a multi-byte character.  In fact the
fallback's byte slice `&content[..1024]` is taken without a boundary
check: on 1023 `'a'`s followed by the two-byte character `'é'` and one
more character, byte 1024 splits `'é'` and the code panics (modelled as
`Except.error`). -/
theorem extract_spacetime_id_panics_on_split_boundary :
    extract_spacetime_id (List.replicate 1023 'a' ++ ['é', 'x']) = .error () := by
  have hcons : List.replicate 1023 'a' ++ (['é', 'x'] : Str) =
      'a' :: (List.replicate 1022 'a' ++ ['é', 'x']) := by
    rw [show (1023 : Nat) = 1022 + 1 from rfl, List.replicate_succ, List.cons_append]
  have hpre : ((lit "---").isPrefixOf (List.replicate 1023 'a' ++ ['é', 'x'])) = false := by
    rw [hcons]
    show (['-', '-', '-'] : Str).isPrefixOf _ = false
    simp [List.isPrefixOf]
  have hlen : utf8Len (List.replicate 1023 'a' ++ ['é', 'x']) = 1026 := by
    rw [utf8Len_replicate_a_append]
    rfl
  have htake : takeBytes 1024 (List.replicate 1023 'a' ++ ['é', 'x']) = none := by
    rw [takeBytes_replicate_a ['é', 'x'] 1023 1024 (by omega)]
    rfl
  simp only [extract_spacetime_id, hpre, Bool.false_eq_true, if_false, hlen]
  norm_num
  rw [htake]

/-- **C8.** If the requested replacement does not change the content,
`find_replace_in_note` leaves the database — in particular the note row,
its content and its `modified_time` — completely unchanged. -/
theorem find_replace_in_note_noop (db : Db) (p old_text new_text : Str)
    (ra : Bool) (ts : Nat) {n : Note}
    (hfind : db.notes.find? (fun x => x.path = p) = some n)
    (heq : applyReplace ra old_text new_text n.content = n.content) :
    find_replace_in_note db p old_text new_text ra ts = db := by
  unfold find_replace_in_note
  rw [hfind]
  simp [heq]

/-- Witness for **C8**: replacing `"zzz"` in a note whose content is
`"abc"` matches nothing and leaves the database unchanged. -/
theorem find_replace_in_note_noop_witness :
    find_replace_in_note
      ⟨[⟨lit "i1", lit "d.md", lit "d", lit "abc", [], 0, lit "{}", 3, 5, 7, 9⟩], []⟩
      (lit "d.md") (lit "zzz") (lit "qqq") true 11 =
      ⟨[⟨lit "i1", lit "d.md", lit "d", lit "abc", [], 0, lit "{}", 3, 5, 7, 9⟩], []⟩ :=
  find_replace_in_note_noop _ _ _ _ _ _
    (n := ⟨lit "i1", lit "d.md", lit "d", lit "abc", [], 0, lit "{}", 3, 5, 7, 9⟩)
    (by decide) (by decide)

/-- Deleting by key repeatedly is one filter on key membership. -/
theorem foldl_filter_key {α β : Type} [DecidableEq β] (key : α → β) :
    ∀ (ks : List β) (l : List α),
      ks.foldl (fun acc k => acc.filter (fun x => key x ≠ k)) l =
        l.filter (fun x => key x ∉ ks)
  | [], l => by
    simp only [List.foldl_nil]
    rw [List.filter_eq_self.mpr]
    intro a _
    simp
  | k :: ks, l => by
    show ks.foldl _ (l.filter (fun x => key x ≠ k)) = _
    rw [foldl_filter_key key ks (l.filter (fun x => key x ≠ k)), List.filter_filter]
    refine List.filter_congr ?_
    intro x _
    rw [Bool.and_comm]
    rw [show ((fun x => decide (key x ≠ k)) x && (fun x => decide (key x ∉ ks)) x) =
        decide (key x ≠ k ∧ key x ∉ ks) from ?_]
    · rw [decide_eq_decide]
      simp [not_or]
    · rcases h1 : decide (key x ≠ k) <;> rcases h2 : decide (key x ∉ ks) <;>
        simp at h1 h2 <;> simp [h1, h2]

/-- For a row of a table whose keys are distinct, the key appears among
the keys of the rows matching `p` exactly when the row itself matches. -/
theorem key_mem_map_filter {α β : Type} [DecidableEq β] (key : α → β)
    (p : α → Bool) {l : List α} (hnodup : (l.map key).Nodup) {x : α}
    (hx : x ∈ l) : key x ∈ (l.filter p).map key ↔ p x = true := by
  constructor
  · intro h
    rcases List.mem_map.mp h with ⟨y, hy, hkey⟩
    have hyl : y ∈ l := List.mem_of_mem_filter hy
    have heq : y = x := List.inj_on_of_nodup_map hnodup hyl hx hkey
    subst heq
    exact (List.mem_filter.mp hy).2
  · intro h
    exact List.mem_map.mpr ⟨x, List.mem_filter.mpr ⟨hx, h⟩, rfl⟩

/-- Same, without distinctness, when the predicate only depends on the
key. -/
theorem key_mem_map_filter_of_det {α β : Type} [DecidableEq β] (key : α → β)
    (p : α → Bool) (hdet : ∀ a b, key a = key b → p a = p b) {l : List α}
    {x : α} (hx : x ∈ l) : key x ∈ (l.filter p).map key ↔ p x = true := by
  constructor
  · intro h
    rcases List.mem_map.mp h with ⟨y, hy, hkey⟩
    rw [← hdet y x hkey]
    exact (List.mem_filter.mp hy).2
  · intro h
    exact List.mem_map.mpr ⟨x, List.mem_filter.mpr ⟨hx, h⟩, rfl⟩

/-- For a well-formed note, its path extends `f/` exactly when its
`folder_path` does: the cascade predicate on `folder_path` coincides
with the claim's predicate on `path`. -/
theorem wf_prefix_iff {n : Note} (hwf : wfNote n) (f : Str) :
    (f ++ ['/']) <+: n.path ↔ (f ++ ['/']) <+: n.folder_path := by
  rcases hwf with ⟨hfp, hslash⟩
  constructor
  · intro hP
    rcases List.prefix_or_prefix_of_prefix hP hfp with h | h
    · exact h
    · rcases h with ⟨t, ht⟩
      cases htnil : t with
      | nil =>
        rw [htnil, List.append_nil] at ht
        rw [← ht]
      | cons c t' =>
        exfalso
        have hlast : t.getLast? = some '/' := by
          have h1 : (f ++ ['/']).getLast? = some '/' := List.getLast?_concat f
          rw [← ht, List.getLast?_append_of_ne_nil _ (by rw [htnil]; simp)] at h1
          exact h1
        have hmem : '/' ∈ t := List.mem_of_mem_getLast? hlast
        rcases hP with ⟨u, hu⟩
        have hpath : n.path = n.folder_path ++ (t ++ u) := by
          rw [← hu, ← ht, List.append_assoc]
        have hdrop : n.path.drop n.folder_path.length = t ++ u := by
          rw [hpath, List.drop_left]
        exact hslash (hdrop ▸ List.mem_append_left u hmem)
  · intro h
    exact h.trans hfp

/-- **C2 (counterexample).** The claim says the cascade of
`delete_folder f` must not affect a sibling folder such as `f2` that
merely shares `f` as a string prefix.  With folders `f` and `f2`,
`delete_folder "f"` in fact deletes both rows. -/
theorem delete_folder_sibling_counterexample :
    (⟨lit "f2", lit "f2", 0⟩ : Folder) ∈
      (⟨[], [⟨lit "f", lit "f", 0⟩, ⟨lit "f2", lit "f2", 0⟩]⟩ : Db).folders ∧
    (delete_folder ⟨[], [⟨lit "f", lit "f", 0⟩, ⟨lit "f2", lit "f2", 0⟩]⟩
      (lit "f")).folders = [] := by decide

/-- **C2 (amended).** For a database whose note ids are distinct and
whose notes are well-formed, if a Folder row exists at `f` (after
normalizing trailing slashes) then `delete_folder f` removes exactly the
Note rows whose path (equivalently `folder_path`) begins with `f/`, and
exactly the Folder rows whose path begins with the *string* `f` — which
includes `f` itself and any sibling such as `f2` sharing `f` as a string
prefix.  All other rows are untouched (the result is literally a filter
of the original tables). -/
theorem delete_folder_spec (db : Db) (f : Str)
    (hnodup : (db.notes.map Note.id).Nodup)
    (hwf : ∀ n ∈ db.notes, wfNote n)
    (hex : (db.folders.find? (fun g => g.path = trimEndSlashes f)).isSome = true) :
    (delete_folder db f).notes =
      db.notes.filter
        (fun n => ¬ (trimEndSlashes f ++ ['/']).isPrefixOf n.path) ∧
    (delete_folder db f).folders =
      db.folders.filter (fun g => ¬ (trimEndSlashes f).isPrefixOf g.path) := by
  unfold delete_folder
  have hcond : ¬ ((db.folders.find?
      (fun g => g.path = trimEndSlashes f)).isNone = true) := by
    rw [Option.isNone_iff_eq_none]
    intro h
    rw [h] at hex
    exact absurd hex (by simp)
  rw [if_neg hcond]
  dsimp only
  constructor
  · rw [foldl_filter_key Note.id]
    refine List.filter_congr ?_
    intro n hn
    refine decide_eq_decide.mpr ?_
    rw [not_iff_not]
    refine (key_mem_map_filter Note.id _ hnodup hn).trans ?_
    rw [List.isPrefixOf_iff_prefix, List.isPrefixOf_iff_prefix]
    exact (wf_prefix_iff (hwf n hn) (trimEndSlashes f)).symm
  · rw [foldl_filter_key Folder.path, List.filter_filter]
    refine List.filter_congr ?_
    intro g hg
    have hdet : ∀ a b : Folder, a.path = b.path →
        ((fun h : Folder => decide ((trimEndSlashes f).isPrefixOf h.path ∧
          h.path ≠ trimEndSlashes f)) a) =
        ((fun h : Folder => decide ((trimEndSlashes f).isPrefixOf h.path ∧
          h.path ≠ trimEndSlashes f)) b) := by
      intro a b hab
      simp only [hab]
    have hmemiff := key_mem_map_filter_of_det Folder.path _ hdet hg
    have hDand : ∀ (p q : Prop) (hp : Decidable p) (hq : Decidable q),
        (decide p && decide q) = decide (p ∧ q) := by
      intro p q hp hq
      by_cases h1 : p <;> by_cases h2 : q <;> simp [h1, h2]
    rw [hDand]
    refine decide_eq_decide.mpr ?_
    constructor
    · rintro ⟨hne, hnotin⟩ hpref
      exact hnotin (hmemiff.mpr (by simp only [decide_eq_true_eq]; exact ⟨hpref, hne⟩))
    · intro hnpref
      constructor
      · intro he
        exact hnpref (by rw [he]; exact List.isPrefixOf_iff_prefix.mpr (List.prefix_refl _))
      · intro hin
        have := hmemiff.mp hin
        simp only [decide_eq_true_eq] at this
        exact hnpref this.1

/-- Witness for **C2 (amended)** on a vault with notes under `f/`,
`f2/` and `g/` and folders `f`, `f/sub`, `f2`, `g`: the note and folder
cascades of `delete_folder "f"` remove exactly the `f/` notes and the
string-prefix-`f` folders. -/
theorem delete_folder_spec_witness :
    (delete_folder
      ⟨[⟨lit "i1", lit "f/a.md", lit "a", lit "x", lit "f/", 1, lit "{}", 1, 0, 0, 0⟩,
        ⟨lit "i2", lit "f2/b.md", lit "b", lit "y", lit "f2/", 1, lit "{}", 1, 0, 0, 0⟩,
        ⟨lit "i3", lit "g/c.md", lit "c", lit "z", lit "g/", 1, lit "{}", 1, 0, 0, 0⟩],
       [⟨lit "f", lit "f", 0⟩, ⟨lit "f/sub", lit "sub", 1⟩,
        ⟨lit "f2", lit "f2", 0⟩, ⟨lit "g", lit "g", 0⟩]⟩
      (lit "f")).notes =
      [⟨lit "i2", lit "f2/b.md", lit "b", lit "y", lit "f2/", 1, lit "{}", 1, 0, 0, 0⟩,
       ⟨lit "i3", lit "g/c.md", lit "c", lit "z", lit "g/", 1, lit "{}", 1, 0, 0, 0⟩] ∧
    (delete_folder
      ⟨[⟨lit "i1", lit "f/a.md", lit "a", lit "x", lit "f/", 1, lit "{}", 1, 0, 0, 0⟩,
        ⟨lit "i2", lit "f2/b.md", lit "b", lit "y", lit "f2/", 1, lit "{}", 1, 0, 0, 0⟩,
        ⟨lit "i3", lit "g/c.md", lit "c", lit "z", lit "g/", 1, lit "{}", 1, 0, 0, 0⟩],
       [⟨lit "f", lit "f", 0⟩, ⟨lit "f/sub", lit "sub", 1⟩,
        ⟨lit "f2", lit "f2", 0⟩, ⟨lit "g", lit "g", 0⟩]⟩
      (lit "f")).folders = [⟨lit "g", lit "g", 0⟩] := by
  have h := delete_folder_spec
    ⟨[⟨lit "i1", lit "f/a.md", lit "a", lit "x", lit "f/", 1, lit "{}", 1, 0, 0, 0⟩,
      ⟨lit "i2", lit "f2/b.md", lit "b", lit "y", lit "f2/", 1, lit "{}", 1, 0, 0, 0⟩,
      ⟨lit "i3", lit "g/c.md", lit "c", lit "z", lit "g/", 1, lit "{}", 1, 0, 0, 0⟩],
     [⟨lit "f", lit "f", 0⟩, ⟨lit "f/sub", lit "sub", 1⟩,
      ⟨lit "f2", lit "f2", 0⟩, ⟨lit "g", lit "g", 0⟩]⟩
    (lit "f") (by decide) (by decide) (by decide)
  exact ⟨h.1.trans (by decide), h.2.trans (by decide)⟩

/-- Delete-by-key-then-insert, folded over a list of rows whose rewrites
never collide with a later key, is one filter plus the appended rewrites. -/
theorem foldl_delete_insert {α β : Type} [DecidableEq β] (key : α → β)
    (rw' : α → α) :
    ∀ (ms l : List α),
      List.Pairwise (fun m m' => key (rw' m) ≠ key m') ms →
      ms.foldl (fun acc m => acc.filter (fun x => key x ≠ key m) ++ [rw' m]) l =
        l.filter (fun x => key x ∉ ms.map key) ++ ms.map rw'
  | [], l, _ => by
    simp only [List.foldl_nil, List.map_nil, List.append_nil]
    rw [List.filter_eq_self.mpr]
    intro a _
    simp
  | m :: ms, l, hpw => by
    rcases List.pairwise_cons.mp hpw with ⟨hhead, htail⟩
    show ms.foldl _ (l.filter (fun x => key x ≠ key m) ++ [rw' m]) = _
    rw [foldl_delete_insert key rw' ms _ htail, List.filter_append]
    have h1 : ([rw' m].filter (fun x => key x ∉ ms.map key)) = [rw' m] := by
      rw [List.filter_eq_self.mpr]
      intro a ha
      rw [List.mem_singleton.mp ha]
      simp only [decide_eq_true_eq]
      intro hin
      rcases List.mem_map.mp hin with ⟨y, hy, hkey⟩
      exact hhead y hy hkey.symm
    rw [h1, List.filter_filter, List.append_assoc, List.singleton_append,
      List.map_cons, List.map_cons]
    refine congrArg₂ (· ++ ·) ?_ rfl
    refine List.filter_congr ?_
    intro x _
    rw [Bool.eq_iff_iff]
    simp only [Bool.and_eq_true, decide_eq_true_eq, List.mem_cons, not_or]
    tauto

/-- `replacen(pat, rep, 1)` on a string that starts with the pattern
replaces that leading occurrence. -/
theorem replacen1_of_leading {pat s : Str} (rep : Str)
    (h : pat.isPrefixOf s = true) :
    replacen1 pat rep s = rep ++ s.drop pat.length := by
  cases s with
  | nil =>
    cases pat with
    | nil => simp [replacen1]
    | cons p ps => exact absurd h (by simp [List.isPrefixOf])
  | cons c rest =>
    show (if pat.isPrefixOf (c :: rest) then rep ++ (c :: rest).drop pat.length
      else c :: replacen1 pat rep rest) = _
    rw [if_pos h]

/-- If neither of two strings is a prefix of the other, the first is not a
prefix of any extension of the second. -/
theorem notPrefix_append {p q : Str} (h1 : ¬ p <+: q) (h2 : ¬ q <+: p)
    (t : Str) : ¬ p <+: (q ++ t) := by
  intro hcon
  rcases le_total p.length q.length with hle | hle
  · exact h1 (List.prefix_of_prefix_length_le hcon (List.prefix_append q t) hle)
  · exact h2 (List.prefix_of_prefix_length_le (List.prefix_append q t) hcon hle)

/-- A path extending `f/` is strictly longer than `f`, hence distinct
from it. -/
theorem path_ne_of_slash_extension {f p : Str} (h : (f ++ ['/']) <+: p) :
    p ≠ f := by
  intro he
  have hl := h.length_le
  rw [he, List.length_append] at hl
  simp at hl

/-- In a table with distinct keys, filtering on one present key yields
exactly that row. -/
theorem filter_key_eq_singleton {α β : Type} [DecidableEq β] (key : α → β) :
    ∀ {l : List α}, (l.map key).Nodup → ∀ {x : α}, x ∈ l →
      l.filter (fun y => key y = key x) = [x]
  | [], _, _, hx => absurd hx (List.not_mem_nil _)
  | a :: l, hnodup, x, hx => by
    rw [List.map_cons, List.nodup_cons] at hnodup
    rcases List.mem_cons.mp hx with he | hmem
    · subst he
      have htail : List.filter (fun y => key y = key x) l = [] := by
        rw [List.filter_eq_nil_iff]
        intro y hy
        simp only [decide_eq_true_eq]
        intro hkey
        refine hnodup.1 ?_
        rw [← hkey]
        exact List.mem_map_of_mem key hy
      rw [List.filter_cons_of_pos (by simp), htail]
    · have hne : ¬ ((fun y => decide (key y = key x)) a = true) := by
        simp only [decide_eq_true_eq]
        intro hkey
        refine hnodup.1 ?_
        rw [hkey]
        exact List.mem_map_of_mem key hmem
      rw [List.filter_cons_of_neg (p := fun y => decide (key y = key x)) hne,
        filter_key_eq_singleton key hnodup.2 hmem]

/-- Partitioning a list by a predicate preserves total length. -/
theorem length_filter_not_add {α : Type} (p : α → Bool) (l : List α) :
    (l.filter (fun x => ¬ p x = true)).length + (l.filter p).length =
      l.length := by
  induction l with
  | nil => rfl
  | cons a l ih =>
    by_cases h : p a = true
    · rw [List.filter_cons_of_pos h, List.filter_cons_of_neg (by simp [h])]
      simp only [List.length_cons]
      omega
    · rw [List.filter_cons_of_neg h, List.filter_cons_of_pos (by simp [h])]
      simp only [List.length_cons]
      omega

/-- The subfolder rewrite of `move_folder` maps a path under `old/` to a
path under `new/`. -/
theorem moveFolderRewrite_path_shape (fN gN : Str) (g : Folder)
    (h : (fN ++ ['/']).isPrefixOf g.path = true) :
    ∃ u, (moveFolderRewrite fN gN g).path = (gN ++ ['/']) ++ u := by
  rcases List.isPrefixOf_iff_prefix.mp h with ⟨u, hu⟩
  refine ⟨u, ?_⟩
  have hf : fN.isPrefixOf g.path = true := by
    rw [List.isPrefixOf_iff_prefix]
    exact (List.prefix_append fN ['/']).trans (List.isPrefixOf_iff_prefix.mp h)
  show replacen1 fN gN g.path = (gN ++ ['/']) ++ u
  rw [replacen1_of_leading gN hf, ← hu, List.append_assoc fN ['/'] u,
    List.drop_left, List.append_assoc]

/-- The note rewrite of `move_folder` maps the path and folder path under
`old/` to paths under `new/`, preserving the id. -/
theorem moveNoteRewrite_fields (pOld pNew : Str) (ts : Nat) (n : Note)
    (hp : pOld.isPrefixOf n.path = true)
    (hfp : pOld.isPrefixOf n.folder_path = true) :
    (moveNoteRewrite pOld pNew ts n).path = pNew ++ n.path.drop pOld.length ∧
    (moveNoteRewrite pOld pNew ts n).folder_path =
      pNew ++ n.folder_path.drop pOld.length ∧
    (moveNoteRewrite pOld pNew ts n).id = n.id := by
  refine ⟨?_, ?_, rfl⟩
  · show replacen1 pOld pNew n.path = _
    rw [replacen1_of_leading pNew hp]
  · show replacen1 pOld pNew n.folder_path = _
    rw [replacen1_of_leading pNew hfp]

/-- **C1 (counterexample).** The claim asserts that after
`move_folder(old, new)` no Note or Folder row has a path with `old` as a
prefix.  On a vault with the single folder `a` and a root note `ax.md`
the claim's preconditions hold (a Folder row exists at `a`, none at `b`),
yet after `move_folder("a", "b")` the untouched root note `ax.md` still
has a path beginning with the string `a`. -/
theorem move_folder_old_prefix_counterexample :
    ((⟨[⟨lit "i1", lit "ax.md", lit "ax", lit "x", [], 0, lit "{}", 1, 0, 0, 0⟩],
        [⟨lit "a", lit "a", 0⟩]⟩ : Db).folders.find?
      (fun g => g.path = trimEndSlashes (lit "a"))).isSome = true ∧
    ((⟨[⟨lit "i1", lit "ax.md", lit "ax", lit "x", [], 0, lit "{}", 1, 0, 0, 0⟩],
        [⟨lit "a", lit "a", 0⟩]⟩ : Db).folders.find?
      (fun g => g.path = trimEndSlashes (lit "b"))).isNone = true ∧
    ∃ n ∈ (move_folder
      ⟨[⟨lit "i1", lit "ax.md", lit "ax", lit "x", [], 0, lit "{}", 1, 0, 0, 0⟩],
        [⟨lit "a", lit "a", 0⟩]⟩ (lit "a") (lit "b") 5).notes,
      (lit "a").isPrefixOf n.path = true := by decide

/-- **C1 (amended).** On a prefix-tree database (every folder sharing
`old` as a string prefix is `old` itself or lies under `old/`; notes are
well-formed; note ids and folder paths are distinct) where neither of
`old/` and `new/` is a prefix of the other, if a Folder row exists at
`old` (trailing slashes stripped) and none at `new`, then
`move_folder(old, new)` rewrites exactly the notes whose path lies under
`old/` with `moveNoteRewrite` and exactly the folders under `old/` with
`moveFolderRewrite`, replaces the `old` row by a fresh `new` row, keeps
both row counts unchanged, and afterwards no note path or folder path
lies under `old/` and no folder path equals `old` (with the bare string
`old` as prefix the claim fails: see the counterexample). -/
theorem move_folder_spec (db : Db) (old new : Str) (ts : Nat)
    (fN gN : Str) (hfN : fN = trimEndSlashes old)
    (hgN : gN = trimEndSlashes new)
    (hnodupN : (db.notes.map Note.id).Nodup)
    (hnodupF : (db.folders.map Folder.path).Nodup)
    (hwf : ∀ n ∈ db.notes, wfNote n)
    (htree : ∀ g ∈ db.folders, fN <+: g.path →
      g.path = fN ∨ (fN ++ ['/']) <+: g.path)
    (hsep1 : ¬ (gN ++ ['/']) <+: (fN ++ ['/']))
    (hsep2 : ¬ (fN ++ ['/']) <+: (gN ++ ['/']))
    (hex : (db.folders.find? (fun g => g.path = fN)).isSome = true)
    (hnew : (db.folders.find? (fun g => g.path = gN)).isNone = true) :
    (move_folder db old new ts).notes =
      db.notes.filter (fun n => ¬ (fN ++ ['/']).isPrefixOf n.path) ++
        (db.notes.filter (fun n => (fN ++ ['/']).isPrefixOf n.path)).map
          (moveNoteRewrite (fN ++ ['/']) (gN ++ ['/']) ts) ∧
    (move_folder db old new ts).folders =
      db.folders.filter (fun g => ¬ fN.isPrefixOf g.path) ++
        (db.folders.filter (fun g => (fN ++ ['/']).isPrefixOf g.path)).map
          (moveFolderRewrite fN gN) ++
        [⟨gN, lastSegment gN, countSlashes gN⟩] ∧
    (move_folder db old new ts).notes.length = db.notes.length ∧
    (move_folder db old new ts).folders.length = db.folders.length ∧
    (∀ n ∈ (move_folder db old new ts).notes,
      ¬ (fN ++ ['/']) <+: n.path ∧ ¬ (fN ++ ['/']) <+: n.folder_path) ∧
    (∀ g ∈ (move_folder db old new ts).folders,
      g.path ≠ fN ∧ ¬ (fN ++ ['/']) <+: g.path) := by
  subst hfN
  subst hgN
  have hcond1 : ¬ ((db.folders.find?
      (fun f => f.path = trimEndSlashes old)).isNone = true) := by
    rw [Option.isNone_iff_eq_none]
    intro h
    rw [h] at hex
    exact absurd hex (by simp)
  have hcond2 : ¬ ((db.folders.find?
      (fun f => f.path = trimEndSlashes new)).isSome = true) := by
    intro h
    rw [Option.isNone_iff_eq_none] at hnew
    rw [hnew] at h
    exact absurd h (by simp)
  have hmsN : db.notes.filter
      (fun n => (trimEndSlashes old ++ ['/']).isPrefixOf n.folder_path) =
      db.notes.filter
      (fun n => (trimEndSlashes old ++ ['/']).isPrefixOf n.path) := by
    refine List.filter_congr ?_
    intro n hn
    rw [Bool.eq_iff_iff, List.isPrefixOf_iff_prefix, List.isPrefixOf_iff_prefix]
    exact (wf_prefix_iff (hwf n hn) (trimEndSlashes old)).symm
  have hpwN : List.Pairwise (fun m m' =>
      Note.id (moveNoteRewrite (trimEndSlashes old ++ ['/'])
        (trimEndSlashes new ++ ['/']) ts m) ≠ Note.id m')
      (db.notes.filter
        (fun n => (trimEndSlashes old ++ ['/']).isPrefixOf n.path)) := by
    have h0 : List.Pairwise (fun a b : Note => a.id ≠ b.id) db.notes :=
      List.pairwise_map.mp hnodupN
    exact (List.Pairwise.sublist (List.filter_sublist db.notes) h0).imp
      (fun h => h)
  have hNotes : (move_folder db old new ts).notes =
      db.notes.filter
        (fun n => ¬ (trimEndSlashes old ++ ['/']).isPrefixOf n.path) ++
      (db.notes.filter
        (fun n => (trimEndSlashes old ++ ['/']).isPrefixOf n.path)).map
        (moveNoteRewrite (trimEndSlashes old ++ ['/'])
          (trimEndSlashes new ++ ['/']) ts) := by
    unfold move_folder
    rw [if_neg hcond1, if_neg hcond2]
    dsimp only
    rw [hmsN]
    rw [foldl_delete_insert Note.id
      (moveNoteRewrite (trimEndSlashes old ++ ['/'])
        (trimEndSlashes new ++ ['/']) ts)
      (db.notes.filter
        (fun n => (trimEndSlashes old ++ ['/']).isPrefixOf n.path))
      db.notes hpwN]
    refine congrArg₂ (· ++ ·) ?_ rfl
    refine List.filter_congr ?_
    intro n hn
    rw [Bool.eq_iff_iff]
    simp only [decide_eq_true_eq]
    rw [not_iff_not]
    exact key_mem_map_filter Note.id _ hnodupN hn
  have hA : db.folders.filter
      (fun f => (trimEndSlashes old).isPrefixOf f.path ∧
        f.path ≠ trimEndSlashes old) =
      db.folders.filter
        (fun f => (trimEndSlashes old ++ ['/']).isPrefixOf f.path) := by
    refine List.filter_congr ?_
    intro g hg
    rw [Bool.eq_iff_iff]
    simp only [decide_eq_true_eq]
    constructor
    · rintro ⟨h1, h2⟩
      rcases htree g hg (List.isPrefixOf_iff_prefix.mp h1) with he | hp
      · exact absurd he h2
      · exact List.isPrefixOf_iff_prefix.mpr hp
    · intro h1
      have hp := List.isPrefixOf_iff_prefix.mp h1
      refine ⟨List.isPrefixOf_iff_prefix.mpr
        ((List.prefix_append _ _).trans hp), ?_⟩
      exact path_ne_of_slash_extension hp
  have hpwF : List.Pairwise (fun m m' =>
      Folder.path (moveFolderRewrite (trimEndSlashes old)
        (trimEndSlashes new) m) ≠ Folder.path m')
      (db.folders.filter
        (fun f => (trimEndSlashes old ++ ['/']).isPrefixOf f.path)) := by
    refine List.pairwise_of_forall_mem_list ?_
    intro m hm m' hm'
    rcases moveFolderRewrite_path_shape (trimEndSlashes old)
      (trimEndSlashes new) m (List.mem_filter.mp hm).2 with ⟨u, hu⟩
    intro heq
    have h2 := List.isPrefixOf_iff_prefix.mp (List.mem_filter.mp hm').2
    rw [← heq, hu] at h2
    exact notPrefix_append hsep2 hsep1 u h2
  have hmapkeep : ((db.folders.filter
      (fun f => (trimEndSlashes old ++ ['/']).isPrefixOf f.path)).map
      (moveFolderRewrite (trimEndSlashes old) (trimEndSlashes new))).filter
      (fun f => f.path ≠ trimEndSlashes old) =
      (db.folders.filter
        (fun f => (trimEndSlashes old ++ ['/']).isPrefixOf f.path)).map
        (moveFolderRewrite (trimEndSlashes old) (trimEndSlashes new)) := by
    rw [List.filter_eq_self]
    intro y hy
    rcases List.mem_map.mp hy with ⟨m, hm, hmy⟩
    rcases moveFolderRewrite_path_shape (trimEndSlashes old)
      (trimEndSlashes new) m (List.mem_filter.mp hm).2 with ⟨u, hu⟩
    simp only [decide_eq_true_eq]
    rw [← hmy, hu]
    intro he
    refine hsep1 (List.IsPrefix.trans ⟨u, he⟩ (List.prefix_append _ _))
  have hFolders : (move_folder db old new ts).folders =
      db.folders.filter
        (fun g => ¬ (trimEndSlashes old).isPrefixOf g.path) ++
      (db.folders.filter
        (fun g => (trimEndSlashes old ++ ['/']).isPrefixOf g.path)).map
        (moveFolderRewrite (trimEndSlashes old) (trimEndSlashes new)) ++
      [⟨trimEndSlashes new, lastSegment (trimEndSlashes new),
        countSlashes (trimEndSlashes new)⟩] := by
    unfold move_folder
    rw [if_neg hcond1, if_neg hcond2]
    dsimp only
    rw [hA]
    rw [foldl_delete_insert Folder.path
      (moveFolderRewrite (trimEndSlashes old) (trimEndSlashes new))
      (db.folders.filter
        (fun f => (trimEndSlashes old ++ ['/']).isPrefixOf f.path))
      db.folders hpwF]
    rw [List.filter_append]
    refine congrArg₂ (· ++ ·) (congrArg₂ (· ++ ·) ?_ ?_) rfl
    · rw [List.filter_filter]
      refine List.filter_congr ?_
      intro g hg
      have hdet : ∀ a b : Folder, a.path = b.path →
          ((fun f : Folder =>
            (trimEndSlashes old ++ ['/']).isPrefixOf f.path) a) =
          ((fun f : Folder =>
            (trimEndSlashes old ++ ['/']).isPrefixOf f.path) b) := by
        intro a b hab
        simp only [hab]
      have hmemiff := key_mem_map_filter_of_det Folder.path _ hdet hg
      rw [Bool.eq_iff_iff]
      simp only [Bool.and_eq_true, decide_eq_true_eq]
      constructor
      · rintro ⟨hne, hnotin⟩ hpref
        rcases htree g hg (List.isPrefixOf_iff_prefix.mp hpref) with he | hp
        · exact hne he
        · exact hnotin (hmemiff.mpr (List.isPrefixOf_iff_prefix.mpr hp))
      · intro hnpref
        constructor
        · intro he
          refine hnpref ?_
          rw [he]
          exact List.isPrefixOf_iff_prefix.mpr (List.prefix_refl _)
        · intro hin
          have hp := List.isPrefixOf_iff_prefix.mp (hmemiff.mp hin)
          exact hnpref (List.isPrefixOf_iff_prefix.mpr
            ((List.prefix_append _ _).trans hp))
    · exact hmapkeep
  have hlenN : (move_folder db old new ts).notes.length =
      db.notes.length := by
    rw [hNotes, List.length_append, List.length_map]
    exact length_filter_not_add
      (fun n => (trimEndSlashes old ++ ['/']).isPrefixOf n.path) db.notes
  rcases Option.isSome_iff_exists.mp hex with ⟨gs, hgs⟩
  have hgmem : gs ∈ db.folders := List.mem_of_find?_eq_some hgs
  have hgpath : gs.path = trimEndSlashes old := by
    have := List.find?_some hgs
    simpa using this
  have hsingle : db.folders.filter
      (fun g => g.path = trimEndSlashes old) = [gs] := by
    rw [← hgpath]
    exact filter_key_eq_singleton Folder.path hnodupF hgmem
  have hx1 : (db.folders.filter
      (fun g => (trimEndSlashes old).isPrefixOf g.path)).filter
      (fun x => ¬ x.path = trimEndSlashes old) =
      db.folders.filter
        (fun g => (trimEndSlashes old ++ ['/']).isPrefixOf g.path) := by
    rw [List.filter_filter]
    refine List.filter_congr ?_
    intro g hg
    rw [Bool.eq_iff_iff]
    simp only [Bool.and_eq_true, decide_eq_true_eq]
    constructor
    · rintro ⟨hne, hpref⟩
      rcases htree g hg (List.isPrefixOf_iff_prefix.mp hpref) with he | hp
      · exact absurd he hne
      · exact List.isPrefixOf_iff_prefix.mpr hp
    · intro h1
      have hp := List.isPrefixOf_iff_prefix.mp h1
      exact ⟨path_ne_of_slash_extension hp,
        List.isPrefixOf_iff_prefix.mpr ((List.prefix_append _ _).trans hp)⟩
  have hx2 : (db.folders.filter
      (fun g => (trimEndSlashes old).isPrefixOf g.path)).filter
      (fun x => x.path = trimEndSlashes old) = [gs] := by
    rw [List.filter_filter, ← hsingle]
    refine List.filter_congr ?_
    intro g hg
    rw [Bool.eq_iff_iff]
    simp only [Bool.and_eq_true, decide_eq_true_eq]
    constructor
    · rintro ⟨he, _⟩
      exact he
    · intro he
      refine ⟨he, ?_⟩
      rw [he]
      exact List.isPrefixOf_iff_prefix.mpr (List.prefix_refl _)
  have hpartF := length_filter_not_add
    (fun g : Folder => (trimEndSlashes old).isPrefixOf g.path) db.folders
  have hpart2 := length_filter_not_add
    (fun x : Folder => decide (x.path = trimEndSlashes old))
    (db.folders.filter (fun g => (trimEndSlashes old).isPrefixOf g.path))
  simp only [decide_eq_true_eq] at hpart2
  rw [hx1, hx2] at hpart2
  have hlenF : (move_folder db old new ts).folders.length =
      db.folders.length := by
    rw [hFolders, List.length_append, List.length_append, List.length_map]
    simp only [List.length_cons, List.length_nil] at hpart2 ⊢
    omega
  have hmemN : ∀ n ∈ (move_folder db old new ts).notes,
      ¬ (trimEndSlashes old ++ ['/']) <+: n.path ∧
      ¬ (trimEndSlashes old ++ ['/']) <+: n.folder_path := by
    intro n hn
    rw [hNotes] at hn
    rcases List.mem_append.mp hn with hl | hr
    · rcases List.mem_filter.mp hl with ⟨hmem, hpred⟩
      simp only [decide_eq_true_eq] at hpred
      have hnp : ¬ (trimEndSlashes old ++ ['/']) <+: n.path := by
        intro hcon
        exact hpred (List.isPrefixOf_iff_prefix.mpr hcon)
      refine ⟨hnp, ?_⟩
      intro hcon
      exact hnp ((wf_prefix_iff (hwf n hmem) (trimEndSlashes old)).mpr hcon)
    · rcases List.mem_map.mp hr with ⟨m, hmfil, hmy⟩
      rcases List.mem_filter.mp hmfil with ⟨hmem, hpred⟩
      have hpp : (trimEndSlashes old ++ ['/']).isPrefixOf m.path = true := hpred
      have hfp : (trimEndSlashes old ++ ['/']).isPrefixOf m.folder_path
          = true := by
        rw [List.isPrefixOf_iff_prefix]
        exact (wf_prefix_iff (hwf m hmem) (trimEndSlashes old)).mp
          (List.isPrefixOf_iff_prefix.mp hpp)
      rcases moveNoteRewrite_fields (trimEndSlashes old ++ ['/'])
        (trimEndSlashes new ++ ['/']) ts m hpp hfp with ⟨hp1, hp2, _⟩
      rw [← hmy]
      exact ⟨by rw [hp1]; exact notPrefix_append hsep2 hsep1 _,
        by rw [hp2]; exact notPrefix_append hsep2 hsep1 _⟩
  have hmemF : ∀ g ∈ (move_folder db old new ts).folders,
      g.path ≠ trimEndSlashes old ∧
      ¬ (trimEndSlashes old ++ ['/']) <+: g.path := by
    intro g hg
    rw [hFolders] at hg
    rcases List.mem_append.mp hg with hg1 | hg2
    · rcases List.mem_append.mp hg1 with hl | hmid
      · rcases List.mem_filter.mp hl with ⟨_, hpred⟩
        simp only [decide_eq_true_eq] at hpred
        constructor
        · intro he
          refine hpred ?_
          rw [he]
          exact List.isPrefixOf_iff_prefix.mpr (List.prefix_refl _)
        · intro hcon
          refine hpred (List.isPrefixOf_iff_prefix.mpr ?_)
          exact (List.prefix_append _ _).trans hcon
      · rcases List.mem_map.mp hmid with ⟨m, hmfil, hmy⟩
        rcases moveFolderRewrite_path_shape (trimEndSlashes old)
          (trimEndSlashes new) m (List.mem_filter.mp hmfil).2 with ⟨u, hu⟩
        rw [← hmy, hu]
        constructor
        · intro he
          exact hsep1 (List.IsPrefix.trans ⟨u, he⟩ (List.prefix_append _ _))
        · exact notPrefix_append hsep2 hsep1 u
    · rw [List.mem_singleton.mp hg2]
      dsimp only
      constructor
      · intro he
        refine hsep1 ?_
        rw [he]
      · intro hcon
        exact hsep2 (hcon.trans (List.prefix_append _ _))
  exact ⟨hNotes, hFolders, hlenN, hlenF, hmemN, hmemF⟩

/-- Witness for **C1 (amended)**: moving `proj` to `work` on a vault with
notes `proj/a.md`, `proj/sub/b.md` and folders `proj`, `proj/sub` rewrites
both notes and the subfolder and replaces the `proj` row by `work`. -/
theorem move_folder_spec_witness :
    (move_folder
      ⟨[⟨lit "i1", lit "proj/a.md", lit "a", lit "x", lit "proj/", 1,
          lit "{}", 1, 0, 0, 0⟩,
        ⟨lit "i2", lit "proj/sub/b.md", lit "b", lit "y", lit "proj/sub/", 2,
          lit "{}", 1, 0, 0, 0⟩],
       [⟨lit "proj", lit "proj", 0⟩, ⟨lit "proj/sub", lit "sub", 1⟩]⟩
      (lit "proj") (lit "work") 9).notes =
      [⟨lit "i1", lit "work/a.md", lit "a", lit "x", lit "work/", 1,
          lit "{}", 1, 0, 0, 9⟩,
       ⟨lit "i2", lit "work/sub/b.md", lit "b", lit "y", lit "work/sub/", 2,
          lit "{}", 1, 0, 0, 9⟩] ∧
    (move_folder
      ⟨[⟨lit "i1", lit "proj/a.md", lit "a", lit "x", lit "proj/", 1,
          lit "{}", 1, 0, 0, 0⟩,
        ⟨lit "i2", lit "proj/sub/b.md", lit "b", lit "y", lit "proj/sub/", 2,
          lit "{}", 1, 0, 0, 0⟩],
       [⟨lit "proj", lit "proj", 0⟩, ⟨lit "proj/sub", lit "sub", 1⟩]⟩
      (lit "proj") (lit "work") 9).folders =
      [⟨lit "work/sub", lit "sub", 1⟩, ⟨lit "work", lit "work", 0⟩] := by
  have h := move_folder_spec
    ⟨[⟨lit "i1", lit "proj/a.md", lit "a", lit "x", lit "proj/", 1,
        lit "{}", 1, 0, 0, 0⟩,
      ⟨lit "i2", lit "proj/sub/b.md", lit "b", lit "y", lit "proj/sub/", 2,
        lit "{}", 1, 0, 0, 0⟩],
     [⟨lit "proj", lit "proj", 0⟩, ⟨lit "proj/sub", lit "sub", 1⟩]⟩
    (lit "proj") (lit "work") 9 (lit "proj") (lit "work")
    (by decide) (by decide) (by decide) (by decide) (by decide) (by decide)
    (by decide) (by decide) (by decide) (by decide)
  exact ⟨h.1.trans (by decide), h.2.1.trans (by decide)⟩

/-- **C3.** The claim says `write_note_to_disk` errors whenever
`vault_root.join(note.path)` resolves to a location outside the vault,
including escapes via `..` components.  The code's guard is lexical: for
`note.path = "../escape.md"` the joined path `/vault/../escape.md`
starts with `/vault` component-wise, so the guard accepts and the write
proceeds, although the path resolves to `/escape.md`, outside the
vault. -/
theorem write_note_to_disk_guard_traversal :
    write_note_to_disk_guard (parsePath (lit "/vault")) (lit "../escape.md") =
      Except.ok ⟨true, [lit "vault", lit "..", lit "escape.md"]⟩ ∧
    pathStartsWith
      (resolvePath ⟨true, [lit "vault", lit "..", lit "escape.md"]⟩)
      (parsePath (lit "/vault")) = false := ⟨rfl, rfl⟩

/-- Every effect emitted for an id concerns that id. -/
theorem effectId_reconcileNote (server_notes loc_notes : List Note)
    (j : Str) :
    ∀ e ∈ reconcileNote (loc_notes.find? (fun n => n.id = j))
      (server_notes.find? (fun n => n.id = j)), effectId e = j := by
  intro e
  cases hL : loc_notes.find? (fun n => n.id = j) with
  | none =>
    cases hS : server_notes.find? (fun n => n.id = j) with
    | none => intro he; exact absurd he (List.not_mem_nil e)
    | some server =>
      have hsrv : server.id = j := by
        have := List.find?_some hS
        simpa using this
      intro he
      simp only [reconcileNote, List.mem_cons, List.mem_singleton] at he
      rcases he with he | he | he
      · rw [he]; exact hsrv
      · rw [he]; exact hsrv
      · exact absurd he (List.not_mem_nil e)
  | some loc =>
    have hloc : loc.id = j := by
      have := List.find?_some hL
      simpa using this
    cases hS : server_notes.find? (fun n => n.id = j) with
    | none =>
      intro he
      simp only [reconcileNote, List.mem_cons, List.mem_singleton] at he
      rcases he with he | he | he
      · rw [he]; exact hloc
      · rw [he]; exact hloc
      · exact absurd he (List.not_mem_nil e)
    | some server =>
      have hsrv : server.id = j := by
        have := List.find?_some hS
        simpa using this
      intro he
      simp only [reconcileNote] at he
      by_cases h1 : server.modified_time > loc.modified_time
      · rw [if_pos h1] at he
        simp only [List.mem_cons, List.mem_singleton] at he
        rcases he with he | he | he
        · rw [he]; exact hsrv
        · rw [he]; exact hsrv
        · exact absurd he (List.not_mem_nil e)
      · rw [if_neg h1] at he
        by_cases h2 : loc.modified_time > server.modified_time
        · rw [if_pos h2] at he
          simp only [List.mem_cons, List.mem_singleton] at he
          rcases he with he | he | he
          · rw [he]; exact hloc
          · rw [he]; exact hloc
          · exact absurd he (List.not_mem_nil e)
        · rw [if_neg h2] at he
          simp only [List.mem_singleton] at he
          rw [he]; exact hloc

/-- **C7.** During startup reconciliation, an id present in both the
server and local maps contributes exactly the claim's effects at its
place in the trace: tracker update with server content plus a disk write
when the server is newer; tracker update with local content plus an
`upsert_note` when the local copy is newer; only a tracker update when
the timestamps are equal.  All effects before and after that segment
concern other ids, so no disk write or upsert for this id occurs outside
its branch. -/
theorem reconcile_on_startup_both_present (server_notes loc_notes : List Note)
    (i : Str) (loc server : Note)
    (hL : loc_notes.find? (fun n => n.id = i) = some loc)
    (hS : server_notes.find? (fun n => n.id = i) = some server) :
    ∃ pre post,
      reconcile_on_startup server_notes loc_notes = pre ++
        (if server.modified_time > loc.modified_time then
          [ReconcileEffect.trackerUpdate server.id server.content,
            ReconcileEffect.diskWrite server]
        else if loc.modified_time > server.modified_time then
          [ReconcileEffect.trackerUpdate loc.id loc.content,
            ReconcileEffect.upsert loc]
        else
          [ReconcileEffect.trackerUpdate loc.id loc.content]) ++ post ∧
      (∀ e ∈ pre, effectId e ≠ i) ∧ (∀ e ∈ post, effectId e ≠ i) := by
  have hsrvmem : server ∈ server_notes := List.mem_of_find?_eq_some hS
  have hsrvid : server.id = i := by
    have := List.find?_some hS
    simpa using this
  have hmem : i ∈ ((server_notes.map Note.id) ++ (loc_notes.map Note.id)).dedup := by
    rw [List.mem_dedup]
    exact List.mem_append_left _ (List.mem_map.mpr ⟨server, hsrvmem, hsrvid⟩)
  rcases List.append_of_mem hmem with ⟨s, t, hst⟩
  have hnodup : (s ++ i :: t).Nodup := by
    rw [← hst]
    exact List.nodup_dedup _
  have hnis : i ∉ s := by
    intro hcon
    rcases List.nodup_append.mp hnodup with ⟨_, _, hdisj⟩
    exact hdisj hcon (List.mem_cons_self i t)
  have hnit : i ∉ t := by
    rcases List.nodup_append.mp hnodup with ⟨_, hnd2, _⟩
    exact (List.nodup_cons.mp hnd2).1
  refine ⟨((s.map (fun j => reconcileNote
      (loc_notes.find? (fun n => n.id = j))
      (server_notes.find? (fun n => n.id = j)))).flatten),
    ((t.map (fun j => reconcileNote
      (loc_notes.find? (fun n => n.id = j))
      (server_notes.find? (fun n => n.id = j)))).flatten), ?_, ?_, ?_⟩
  · unfold reconcile_on_startup
    dsimp only
    rw [hst, List.map_append, List.map_cons, List.flatten_append, List.flatten_cons]
    rw [hL, hS, ← List.append_assoc]
    rfl
  · intro e he
    rcases List.mem_flatten.mp he with ⟨l, hl, hel⟩
    rcases List.mem_map.mp hl with ⟨j, hjs, hlj⟩
    rw [← hlj] at hel
    intro hcon
    rw [effectId_reconcileNote server_notes loc_notes j e hel] at hcon
    rw [hcon] at hjs
    exact hnis hjs
  · intro e he
    rcases List.mem_flatten.mp he with ⟨l, hl, hel⟩
    rcases List.mem_map.mp hl with ⟨j, hjt, hlj⟩
    rw [← hlj] at hel
    intro hcon
    rw [effectId_reconcileNote server_notes loc_notes j e hel] at hcon
    rw [hcon] at hjt
    exact hnit hjt

/-- Witness for **C7**: one note id on both sides with the server copy
newer yields the download branch. -/
theorem reconcile_on_startup_both_present_witness :
    ∃ pre post,
      reconcile_on_startup
        [⟨lit "i1", lit "n.md", lit "n", lit "srv", [], 0, lit "{}", 3, 0, 9, 0⟩]
        [⟨lit "i1", lit "n.md", lit "n", lit "old", [], 0, lit "{}", 3, 0, 4, 0⟩]
        = pre ++
        (if (9 : Nat) > (4 : Nat) then
          [ReconcileEffect.trackerUpdate (lit "i1") (lit "srv"),
            ReconcileEffect.diskWrite
              ⟨lit "i1", lit "n.md", lit "n", lit "srv", [], 0, lit "{}", 3, 0, 9, 0⟩]
        else if (4 : Nat) > (9 : Nat) then
          [ReconcileEffect.trackerUpdate (lit "i1") (lit "old"),
            ReconcileEffect.upsert
              ⟨lit "i1", lit "n.md", lit "n", lit "old", [], 0, lit "{}", 3, 0, 4, 0⟩]
        else
          [ReconcileEffect.trackerUpdate (lit "i1") (lit "old")]) ++ post ∧
      (∀ e ∈ pre, effectId e ≠ lit "i1") ∧ (∀ e ∈ post, effectId e ≠ lit "i1") :=
  reconcile_on_startup_both_present
    [⟨lit "i1", lit "n.md", lit "n", lit "srv", [], 0, lit "{}", 3, 0, 9, 0⟩]
    [⟨lit "i1", lit "n.md", lit "n", lit "old", [], 0, lit "{}", 3, 0, 4, 0⟩]
    (lit "i1")
    ⟨lit "i1", lit "n.md", lit "n", lit "old", [], 0, lit "{}", 3, 0, 4, 0⟩
    ⟨lit "i1", lit "n.md", lit "n", lit "srv", [], 0, lit "{}", 3, 0, 9, 0⟩
    (by decide) (by decide)

end SpaceNotes
